import Mathlib

/-!
# BitExtract: the three block decoders and the archive driver

A shallow embedding of `bitextract.c`.

Conventions of the embedding
* A memory region (the raw block `in`, the archive file) is a `List Byte`; a
  read outside the region yields `0` (the C code performs no bounds check, the
  embedding makes such reads total).
* `int32_t` values are `Int`s kept in range by `toI32`; `uint32_t` values are
  `Nat`s kept in range by `toU32`; `size_t` is 64 bits wide (`toSizeT`).
* Multi-byte fields are read little-endian from packed structures
  (`#pragma pack(push, 1)`).
* The output buffer is the list of bytes stored through `outPtr`, in address
  order, so `outPtr - *out` is the length of that list. The size given to
  `malloc` is not part of the model of the decoders: bytes stored past it are
  kept, and an allocation is taken to succeed. `decompressCopyOnMachine` adds
  the one case in which it cannot: a request above `PTRDIFF_MAX`.
* `memcpy` between the input block and the output buffer is a plain copy.
  `memcpy` inside the output buffer (the back-reference of type 2) is fixed by
  C only for disjoint regions; for the other cases the decoder takes the
  behaviour of the C library as a parameter (`Libc`).
-/

namespace BitExtract

set_option autoImplicit false

/-! ## Machine integers and memory -/

/-- One octet. -/
abbrev Byte := Fin 256

/-- Conversion to `uint32_t`. -/
def toU32 (x : Int) : Nat := (x % 4294967296).toNat

/-- Conversion to `int32_t` (two's complement). -/
def toI32 (x : Int) : Int := (x + 2147483648) % 4294967296 - 2147483648

/-- Conversion to `size_t`. -/
def toSizeT (x : Int) : Nat := (x % 18446744073709551616).toNat

/-- The byte at offset `i` of a region. -/
def rd (mem : List Byte) (i : Nat) : Byte := mem.getD i 0

/-- Little-endian `uint16_t` at offset `i`. -/
def rd16 (mem : List Byte) (i : Nat) : Nat :=
  (rd mem i).val + 256 * (rd mem (i + 1)).val

/-- Little-endian `uint32_t` at offset `i`. -/
def rd32 (mem : List Byte) (i : Nat) : Nat :=
  (rd mem i).val + 256 * (rd mem (i + 1)).val + 65536 * (rd mem (i + 2)).val
    + 16777216 * (rd mem (i + 3)).val

/-- The bytes stored by `memcpy(dst, src + off, n)` when `src` is a region other
than the destination. -/
def memcpyFrom (src : List Byte) (off : Nat) : Nat → List Byte
  | 0 => []
  | n + 1 => rd src off :: memcpyFrom src (off + 1) n

/-! ## `cmpHeader` -/

/-- Size of the packed `cmpHeader`: `b[4]`, `length`, `skip`. -/
def sizeofCmpHeader : Nat := 10

/-- Field `length` of the `cmpHeader` at the start of a block. -/
def hdrLength (blk : List Byte) : Nat := rd32 blk 4

/-- Field `skip` of the `cmpHeader` at the start of a block. -/
def hdrSkip (blk : List Byte) : Nat := rd16 blk 8

/-- The expression `hdr->length - hdr->skip`: unsigned 32-bit subtraction, then
stored in (or returned as) an `int32_t`. -/
def lengthMinusSkip (blk : List Byte) : Int :=
  toI32 (toU32 ((hdrLength blk : Int) - (hdrSkip blk : Int)))

/-- What a decoder hands back: the returned `int32_t` and the bytes it stored
in the buffer `*out`. -/
structure Decoded where
  ret : Int
  out : List Byte
deriving DecidableEq, Repr

/-! ## Type 0: raw copy -/

/-- Embedding of `decompressCopy`. -/
def decompressCopy (inp : List Byte) : Decoded :=
  let length := lengthMinusSkip inp
  { ret := length
    out := memcpyFrom inp (hdrSkip inp + sizeofCmpHeader) (toSizeT length) }

/-- The size that `decompressCopy` passes to `malloc` and to `memcpy`: the
`int32_t` variable `length` converted to `size_t`. -/
def copyRequest (inp : List Byte) : Nat := toSizeT (lengthMinusSkip inp)

/-- The largest size an object can have where `size_t` has 64 bits
(`PTRDIFF_MAX`); `malloc` yields `NULL` for any larger request. -/
def ptrdiffMax : Nat := 9223372036854775807

/-- The call `decompressCopy(in, &out)` on a machine. The function does not test
what `malloc` yields, so when the request exceeds `ptrdiffMax` the call of
`memcpy` stores through `NULL` and the function does not come back (`none`).
For a smaller request the allocation is taken to succeed and the function hands
back what `decompressCopy` describes. -/
def decompressCopyOnMachine (inp : List Byte) : Option Decoded :=
  if copyRequest inp ≤ ptrdiffMax then some (decompressCopy inp) else none

/-! ## The decode loop shared by types 1 and 2 -/

/-- The local variables of a decode loop: the cursor `in` (as an offset into the
block), `bytesLeft`, and the bytes stored so far below `outPtr`. -/
structure LoopState where
  inPos : Nat
  bytesLeft : Int
  out : List Byte
deriving DecidableEq, Repr

/-- The statement `bytesLeft -= copy` with `bytesLeft : int32_t` and
`copy : uint32_t`: the subtraction is done on `uint32_t`, the result stored
back in the `int32_t`. -/
def subCopy (bytesLeft : Int) (copy : Nat) : Int :=
  toI32 (toU32 ((toU32 bytesLeft : Int) - (copy : Int)))

/-- The part `while (bytesLeft > 0)` of the loop: the body is run again as long
as the test holds. The first argument bounds the number of further iterations. -/
def whileBytesLeft (body : LoopState → LoopState) : Nat → LoopState → LoopState
  | 0, s => s
  | fuel + 1, s => if 0 < s.bytesLeft then whileBytesLeft body fuel (body s) else s

/-- The loop `do { body } while (bytesLeft > 0);`: the body runs once before
the first test. After the first pass `bytesLeft`, when positive, bounds the
number of passes still to come (`whileBytesLeft_exit`). -/
def doWhile (body : LoopState → LoopState) (s : LoopState) : LoopState :=
  whileBytesLeft body (body s).bytesLeft.toNat (body s)

/-- A loop body that, in every state, stores some number `c` of bytes between 1
and 130 and lowers `bytesLeft` by `c` (modulo `2^32`). -/
def Decrements (body : LoopState → LoopState) : Prop :=
  ∀ s, ∃ c : Nat, 1 ≤ c ∧ c ≤ 130 ∧ (body s).bytesLeft = toI32 (s.bytesLeft - c) ∧
    (body s).out.length = s.out.length + c

/-- Two inputs that hold the same bytes from offset 10 on, up to a shift by
`delta`. -/
def SameFrom10 (a b : List Byte) (delta : Nat) : Prop :=
  ∀ j, 10 ≤ j → rd a (j + delta) = rd b j

/-- Two loop states that differ by the shift of the cursor only. -/
def Shifted (delta : Nat) (s1 s2 : LoopState) : Prop :=
  s1.inPos = s2.inPos + delta ∧ 10 ≤ s2.inPos ∧ s1.bytesLeft = s2.bytesLeft ∧ s1.out = s2.out

/-! ## Type 1: RLE -/

/-- One pass through the body of the loop of `decompressRLE`. -/
def rleBody (inp : List Byte) (s : LoopState) : LoopState :=
  let nr := (rd inp s.inPos).val
  if 0x80 ≤ nr then
    let copy := toU32 ((nr : Int) - 0x7d)
    { inPos := s.inPos + 2
      bytesLeft := subCopy s.bytesLeft copy
      out := s.out ++ List.replicate copy (rd inp (s.inPos + 1)) }
  else
    let copy := toU32 ((nr : Int) + 1)
    { inPos := s.inPos + (copy + 1)
      bytesLeft := subCopy s.bytesLeft copy
      out := s.out ++ memcpyFrom inp (s.inPos + 1) copy }

/-- The loop state of `decompressRLE` before the first pass. -/
def rleInit (inp : List Byte) : LoopState :=
  { inPos := hdrSkip inp + sizeofCmpHeader, bytesLeft := lengthMinusSkip inp, out := [] }

/-- The loop state of `decompressRLE` when the loop is left. -/
def rleFinal (inp : List Byte) : LoopState :=
  doWhile (rleBody inp) (rleInit inp)

/-- Embedding of `decompressRLE`. -/
def decompressRLE (inp : List Byte) : Decoded :=
  { ret := lengthMinusSkip inp, out := (rleFinal inp).out }

/-! ## Type 2: LZ + RLE -/

/-- The C library, as far as the program depends on behaviour that C leaves
open: what `memcpy(dst, dst - distance, n)` stores when source and destination
overlap or the source starts before the buffer. The arguments are the bytes of
the buffer below `dst`, `distance` and `n`. -/
structure Libc where
  memcpyUndef : List Byte → Nat → Nat → List Byte

/-- The bytes stored by `memcpy(outPtr, outPtr - distance, n)`, `buf` being the
output below `outPtr`. For disjoint regions inside the buffer they are the `n`
bytes found `distance` below `outPtr`; otherwise they are the first `n` bytes of
what the library does. -/
def memcpyBack (libc : Libc) (buf : List Byte) (distance n : Nat) : List Byte :=
  if n ≤ distance ∧ distance ≤ buf.length then
    (buf.drop (buf.length - distance)).take n
  else
    memcpyFrom (libc.memcpyUndef buf distance n) 0 n

/-- The byte at address `outPtr - distance + i`, where `buf` holds the bytes
below `outPtr`; addresses outside `buf` read `0`. -/
def backByte (buf : List Byte) (distance i : Nat) : Byte :=
  if distance ≤ buf.length + i then rd buf (buf.length + i - distance) else 0

/-- A `memcpy` that copies one byte at a time in ascending address order:
`buf` after `n` bytes were copied to its end from `distance` below. -/
def forwardCopy (distance : Nat) : Nat → List Byte → List Byte
  | 0, buf => buf
  | n + 1, buf => forwardCopy distance n (buf ++ [backByte buf distance 0])

/-- A C library whose `memcpy` copies byte by byte, lowest address first. -/
def Libc.forward : Libc :=
  { memcpyUndef := fun buf distance n => (forwardCopy distance n buf).drop buf.length }

/-- A C library whose `memcpy` loads the whole source before it stores
(the behaviour of `memmove`). -/
def Libc.block : Libc :=
  { memcpyUndef := fun buf distance n => (List.range n).map (backByte buf distance) }

/-- One pass through the body of the loop of `decompressLZRLE`. -/
def lzrleBody (libc : Libc) (inp : List Byte) (s : LoopState) : LoopState :=
  let op := (rd inp s.inPos).val
  if op &&& 0x80 ≠ 0 then
    if op &&& 0x40 ≠ 0 then
      let copy := toU32 ((op : Int) - 0xbd)
      { inPos := s.inPos + 2
        bytesLeft := subCopy s.bytesLeft copy
        out := s.out ++ List.replicate copy (rd inp (s.inPos + 1)) }
    else
      let copy := toU32 ((op : Int) - 0x7c)
      let distance := rd16 inp (s.inPos + 1)
      { inPos := s.inPos + 3
        bytesLeft := subCopy s.bytesLeft copy
        out := s.out ++ memcpyBack libc s.out distance copy }
  else
    let copy := toU32 ((op : Int) + 1)
    { inPos := s.inPos + (copy + 1)
      bytesLeft := subCopy s.bytesLeft copy
      out := s.out ++ memcpyFrom inp (s.inPos + 1) copy }

/-- The loop state of `decompressLZRLE` before the first pass. -/
def lzrleInit (inp : List Byte) : LoopState :=
  { inPos := hdrSkip inp + 10, bytesLeft := lengthMinusSkip inp, out := [] }

/-- The loop state of `decompressLZRLE` when the loop is left. -/
def lzrleFinal (libc : Libc) (inp : List Byte) : LoopState :=
  doWhile (lzrleBody libc inp) (lzrleInit inp)

/-- Embedding of `decompressLZRLE`. -/
def decompressLZRLE (libc : Libc) (inp : List Byte) : Decoded :=
  { ret := lengthMinusSkip inp, out := (lzrleFinal libc inp).out }

/-! ## Reference reading of a type-1 stream -/

/-- An opcode of a type-1 stream together with its operands. -/
inductive RleOp where
  | repeatRun (nr v : Byte)
  | rawRun (nr : Byte) (lits : List Byte)
deriving DecidableEq, Repr

/-- A repeat-run has `nr ≥ 0x80`; a raw-run has `nr < 0x80` and carries
`nr + 1` literal bytes. -/
def RleOp.WellFormed : RleOp → Prop
  | .repeatRun nr _ => 0x80 ≤ nr.val
  | .rawRun nr lits => nr.val < 0x80 ∧ lits.length = nr.val + 1

instance (op : RleOp) : Decidable op.WellFormed := by
  cases op <;> unfold RleOp.WellFormed <;> infer_instance

/-- The bytes of the stream that make up the opcode. -/
def RleOp.encode : RleOp → List Byte
  | .repeatRun nr v => [nr, v]
  | .rawRun nr lits => nr :: lits

/-- The number of bytes the opcode stands for. -/
def RleOp.count : RleOp → Nat
  | .repeatRun nr _ => nr.val - 0x7D
  | .rawRun nr _ => nr.val + 1

/-- The bytes the opcode stands for. -/
def RleOp.expand : RleOp → List Byte
  | .repeatRun nr v => List.replicate (nr.val - 0x7D) v
  | .rawRun _ lits => lits

/-- The stream bytes of a sequence of opcodes. -/
def encodeRle : List RleOp → List Byte
  | [] => []
  | op :: ops => op.encode ++ encodeRle ops

/-- The sum of the counts of a sequence of opcodes. -/
def countRle : List RleOp → Nat
  | [] => 0
  | op :: ops => op.count + countRle ops

/-- The concatenation, in order, of what the opcodes stand for. -/
def expandRle : List RleOp → List Byte
  | [] => []
  | op :: ops => op.expand ++ expandRle ops

/-- A header declaring `length = 0x80000003`, `skip = 0`. -/
def longHeader : List Byte := [1, 0, 0, 0, 0x03, 0, 0, 0x80, 0, 0]

/-- A well-formed type-1 opcode sequence whose counts sum to `0x80000003`:
one raw-run of one byte, then 16519105 repeat-runs of 130 bytes. -/
def longRleOps : List RleOp :=
  .rawRun 0 [0x41] :: .repeatRun 0xFF 0x58 :: List.replicate 16519104 (.repeatRun 0xFF 0x58)

/-! ## Reference reading of a type-2 stream -/

/-- An opcode of a type-2 stream together with its operands; the distance of a
back-reference is given by its two bytes, low byte first. -/
inductive LzOp where
  | repeatRun (op v : Byte)
  | backRef (op lo hi : Byte)
  | rawRun (op : Byte) (lits : List Byte)
deriving DecidableEq, Repr

/-- The number of bytes the opcode stands for. -/
def LzOp.count : LzOp → Nat
  | .repeatRun op _ => op.val - 0xBD
  | .backRef op _ _ => op.val - 0x7C
  | .rawRun op _ => op.val + 1

/-- The bytes of the stream that make up the opcode. -/
def LzOp.encode : LzOp → List Byte
  | .repeatRun op v => [op, v]
  | .backRef op lo hi => [op, lo, hi]
  | .rawRun op lits => op :: lits

/-- Well-formedness of an opcode met when `emitted` bytes have been produced: a
repeat-run has bits `0x80` and `0x40` set; a back-reference has `0x80` set,
`0x40` clear and `count ≤ distance ≤ emitted`; a raw-run has `0x80` clear and
carries `op + 1` literals. -/
def LzOp.WellFormed (emitted : Nat) : LzOp → Prop
  | .repeatRun op _ => op.val &&& 0x80 ≠ 0 ∧ op.val &&& 0x40 ≠ 0
  | .backRef op lo hi =>
      op.val &&& 0x80 ≠ 0 ∧ ¬ (op.val &&& 0x40 ≠ 0) ∧
      op.val - 0x7C ≤ lo.val + 256 * hi.val ∧ lo.val + 256 * hi.val ≤ emitted
  | .rawRun op lits => ¬ (op.val &&& 0x80 ≠ 0) ∧ lits.length = op.val + 1

instance (emitted : Nat) (op : LzOp) : Decidable (op.WellFormed emitted) := by
  cases op <;> unfold LzOp.WellFormed <;> infer_instance

/-- The bytes the opcode stands for when `acc` is the output so far: copies of
the value byte, the `count` bytes starting `distance` before the end of `acc`,
or the literals. -/
def LzOp.expand (acc : List Byte) : LzOp → List Byte
  | .repeatRun op v => List.replicate (op.val - 0xBD) v
  | .backRef op lo hi => (acc.drop (acc.length - (lo.val + 256 * hi.val))).take (op.val - 0x7C)
  | .rawRun _ lits => lits

/-- The stream bytes of a sequence of opcodes. -/
def encodeLz : List LzOp → List Byte
  | [] => []
  | op :: ops => op.encode ++ encodeLz ops

/-- The sum of the counts of a sequence of opcodes. -/
def countLz : List LzOp → Nat
  | [] => 0
  | op :: ops => op.count + countLz ops

/-- The reference expansion: the output `acc` extended by what each opcode
stands for, in order. -/
def expandLz (acc : List Byte) : List LzOp → List Byte
  | [] => acc
  | op :: ops => expandLz (acc ++ op.expand acc) ops

/-- Every opcode of the sequence is well-formed where it is met, `emitted`
bytes having been produced before the sequence. -/
def WellFormedLz (emitted : Nat) : List LzOp → Prop
  | [] => True
  | op :: ops => op.WellFormed emitted ∧ WellFormedLz (emitted + op.count) ops

instance decWellFormedLz : (emitted : Nat) → (ops : List LzOp) →
    Decidable (WellFormedLz emitted ops)
  | _, [] => isTrue trivial
  | emitted, op :: ops =>
    @instDecidableAnd _ _ _ (decWellFormedLz (emitted + op.count) ops)

/-- The shape of an opcode, apart from where a back-reference points: a
repeat-run has bits `0x80` and `0x40` set; a back-reference has `0x80` set and
`0x40` clear, with any distance; a raw-run has `0x80` clear and carries
`op + 1` literals. -/
def LzOp.Shaped : LzOp → Prop
  | .repeatRun op _ => op.val &&& 0x80 ≠ 0 ∧ op.val &&& 0x40 ≠ 0
  | .backRef op _ _ => op.val &&& 0x80 ≠ 0 ∧ ¬ (op.val &&& 0x40 ≠ 0)
  | .rawRun op lits => ¬ (op.val &&& 0x80 ≠ 0) ∧ lits.length = op.val + 1

instance (op : LzOp) : Decidable op.Shaped := by
  cases op <;> unfold LzOp.Shaped <;> infer_instance

/-- A header declaring `length = 0x80000041`, `skip = 0`. -/
def longLzHeader : List Byte := [2, 0, 0, 0, 0x41, 0, 0, 0x80, 0, 0]

/-- A well-formed type-2 opcode sequence whose counts sum to `0x80000041`:
one raw-run of one byte, then 32537632 repeat-runs of 66 bytes. -/
def longLzOps : List LzOp :=
  .rawRun 0 [0x41] :: .repeatRun 0xFF 0x58 :: List.replicate 32537631 (.repeatRun 0xFF 0x58)

/-! ## The archive and `main` -/

/-- The table `decompressionFuncs`. -/
def decompressionFuncs (libc : Libc) : List (List Byte → Decoded) :=
  [decompressCopy, decompressRLE, decompressLZRLE libc]

/-- Lines 219 to 229 of `main`: the test `*inB > 2` on the first byte of the raw
block and, when it fails, the call through `decompressionFuncs[*inB]`. The
error value is the byte reported as unsupported. -/
def dispatch (libc : Libc) (inB : List Byte) : Except Nat Decoded :=
  if h : 2 < (rd inB 0).val then
    .error (rd inB 0).val
  else
    .ok ((decompressionFuncs libc).get ⟨(rd inB 0).val, by simp [decompressionFuncs]; omega⟩ inB)

/-- Size of the packed `bitHeader`: `magic[4]`, `revision`, `numEntries`. -/
def sizeofBitHeader : Nat := 10

/-- Size of the packed `bitEntry`: four `uint32_t` and one `uint8_t`. -/
def sizeofBitEntry : Nat := 17

/-- The structure `bitEntry`. -/
structure BitEntry where
  id : Nat
  offset : Nat
  length : Nat
  hash : Nat
  flag : Nat
deriving DecidableEq, Repr

/-- Entry `i` of the table read by `fread(entries, sizeof(bitEntry), numEntries, in)`
right after the header. -/
def readEntry (file : List Byte) (i : Nat) : BitEntry :=
  let base := sizeofBitHeader + sizeofBitEntry * i
  { id := rd32 file base
    offset := rd32 file (base + 4)
    length := rd32 file (base + 8)
    hash := rd32 file (base + 12)
    flag := (rd file (base + 16)).val }

/-- Field `numEntries` of the `bitHeader`. -/
def numEntries (file : List Byte) : Nat := rd32 file 6

/-- The string literal `"BITP"` with its terminator. -/
def bitpLiteral : List Byte := [0x42, 0x49, 0x54, 0x50, 0]

/-- Whether `strncmp(a + i, b + i, n)` is non-zero: the strings are compared
byte by byte until they differ, a terminator is met, or `n` bytes are done. -/
def strncmp (a b : List Byte) (i : Nat) : Nat → Bool
  | 0 => false
  | n + 1 =>
    if rd a i ≠ rd b i then true
    else if rd a i = 0 then false
    else strncmp a b (i + 1) n

/-- The raw block of an entry: `fseek(in, offset, SEEK_SET)` and
`fread(inB, 1, length, in)`. -/
def readBlock (file : List Byte) (offset length : Nat) : List Byte :=
  (file.drop offset).take length

/-- The bytes handed to `fwrite(outB, 1, sz, out)`: `sz` converted to `size_t`
bytes from the start of the output buffer. -/
def fwriteData (d : Decoded) : List Byte := memcpyFrom d.out 0 (toSizeT d.ret)

/-- The calls of `main` that touch the archive's entries or the output
directory, the output file being named by the entry's `id`. -/
inductive Event where
  | readEntries (n : Nat)
  | mkdir
  | fopenOut (id : Nat)
  | readBlock (offset length : Nat)
  | fwrite (id : Nat) (data : List Byte)
  | fclose (id : Nat)
deriving DecidableEq, Repr

/-- How `main` ends: `return 1` after the message about the magic (with the
four bytes printed), `return 1` after the message about the compression format,
or `return 0` after `Done!`. -/
inductive Exit where
  | badMagic (magic : List Byte)
  | unsupported (format : Nat)
  | done
deriving DecidableEq, Repr

/-- The value returned by `main`. -/
def Exit.code : Exit → Nat
  | .badMagic _ => 1
  | .unsupported _ => 1
  | .done => 0

/-- A run of `main`: the calls made, in order, and how it ended. -/
structure Run where
  events : List Event
  exit : Exit
deriving DecidableEq, Repr

/-- The loop `for (i = 0; i < hdr.numEntries; i++)` of `main` over the entries
still to be extracted. Opening an output file is taken to succeed. -/
def extractLoop (libc : Libc) (file : List Byte) : List BitEntry → Run
  | [] => { events := [], exit := .done }
  | e :: es =>
    match dispatch libc (readBlock file e.offset e.length) with
    | .error t =>
      { events := [.fopenOut e.id, .readBlock e.offset e.length], exit := .unsupported t }
    | .ok d =>
      let r := extractLoop libc file es
      { events := .fopenOut e.id :: .readBlock e.offset e.length
          :: .fwrite e.id (fwriteData d) :: .fclose e.id :: r.events
        exit := r.exit }

/-- The array `entries` after `fread(entries, sizeof(bitEntry), hdr.numEntries, in)`. -/
def entryTable (file : List Byte) : List BitEntry :=
  (List.range (numEntries file)).map (readEntry file)

/-- Embedding of `main`, called with two arguments and an archive that can be
opened, whose content is `file`. -/
def main (libc : Libc) (file : List Byte) : Run :=
  if strncmp file bitpLiteral 0 4 then
    { events := [], exit := .badMagic (memcpyFrom file 0 4) }
  else
    let r := extractLoop libc file (entryTable file)
    { events := .readEntries (numEntries file) :: .mkdir :: r.events, exit := r.exit }

/-- The bytes written to a file between its `fopen` and its `fclose` (or the
next `fopen`, or the end of the run). -/
def writtenUntilClose : List Event → List Byte
  | [] => []
  | .fwrite _ data :: evs => data ++ writtenUntilClose evs
  | .fclose _ :: _ => []
  | .fopenOut _ :: _ => []
  | _ :: evs => writtenUntilClose evs

/-- The output files a run leaves behind, in the order in which they were
opened: `fopen(fn, "wb")` creates (or empties) the file named by the entry's
`id`, the `fwrite` calls that follow fill it. -/
def artifacts : List Event → List (Nat × List Byte)
  | [] => []
  | .fopenOut id :: evs => (id, writtenUntilClose evs) :: artifacts evs
  | _ :: evs => artifacts evs

/-- Whether the raw block of an entry passes the test `*inB > 2` of `main`. -/
def supported (file : List Byte) (e : BitEntry) : Bool :=
  decide ((rd (readBlock file e.offset e.length) 0).val ≤ 2)

/-- The output file of an entry that is extracted: its name and the bytes
written, `sz` bytes of the buffer of the decoder chosen by the first byte. -/
def extracted (libc : Libc) (file : List Byte) (e : BitEntry) : Nat × List Byte :=
  (e.id, fwriteData ((decompressionFuncs libc).getD
    (rd (readBlock file e.offset e.length) 0).val decompressCopy
    (readBlock file e.offset e.length)))

/-- An archive with one entry (`id = 0x11223344`, `offset = 27`, `length = 12`)
whose block starts with the byte `3`. -/
def unsupportedArchive : List Byte :=
  [0x42, 0x49, 0x54, 0x50, 1, 0, 1, 0, 0, 0,
    0x44, 0x33, 0x22, 0x11, 27, 0, 0, 0, 12, 0, 0, 0, 0x04, 0x03, 0x02, 0x01, 7,
    3, 0, 0, 0, 1, 0, 0, 0, 0, 0, 0x41, 0x42]

/-! ## Basic facts -/

theorem toI32_of_range (x : Int) (h0 : -2147483648 ≤ x) (h1 : x < 2147483648) :
    toI32 x = x := by
  unfold toI32; omega

theorem hdrSkip_lt (blk : List Byte) : hdrSkip blk < 65536 := by
  unfold hdrSkip rd16
  have h0 := (rd blk 8).isLt
  have h1 := (rd blk (8 + 1)).isLt
  omega

theorem hdrLength_lt (blk : List Byte) : hdrLength blk < 4294967296 := by
  unfold hdrLength rd32
  have h0 := (rd blk 4).isLt
  have h1 := (rd blk (4 + 1)).isLt
  have h2 := (rd blk (4 + 2)).isLt
  have h3 := (rd blk (4 + 3)).isLt
  omega

/-- When `skip ≤ length` and the difference fits an `int32_t`, the C expression
`hdr->length - hdr->skip` is the mathematical difference. -/
theorem lengthMinusSkip_eq (blk : List Byte) (h : hdrSkip blk ≤ hdrLength blk)
    (hlt : hdrLength blk - hdrSkip blk < 2147483648) :
    lengthMinusSkip blk = ((hdrLength blk - hdrSkip blk : Nat) : Int) := by
  unfold lengthMinusSkip toU32 toI32
  omega

theorem memcpyFrom_length (src : List Byte) (off n : Nat) :
    (memcpyFrom src off n).length = n := by
  induction n generalizing off with
  | zero => rfl
  | succ n ih => simp [memcpyFrom, ih]

/-- A copy that stays inside the source region is the corresponding slice. -/
theorem memcpyFrom_eq_slice (src : List Byte) (off n : Nat) (h : off + n ≤ src.length) :
    memcpyFrom src off n = (src.drop off).take n := by
  induction n generalizing off with
  | zero => simp [memcpyFrom]
  | succ n ih =>
    have hlt : off < src.length := by omega
    rw [memcpyFrom, ih (off + 1) (by omega), List.drop_eq_getElem_cons hlt, List.take_succ_cons]
    simp [rd, List.getElem?_eq_getElem hlt]

/-! ## Reads from concatenated regions -/

theorem rd_append_left (a b : List Byte) (i : Nat) (h : i < a.length) :
    rd (a ++ b) i = rd a i := by
  simp [rd, List.getElem?_append_left h]

theorem rd_append_right (a b : List Byte) (i : Nat) :
    rd (a ++ b) (a.length + i) = rd b i := by
  simp [rd, List.getElem?_append_right]

theorem rd_append_cons (a b : List Byte) (x : Byte) : rd (a ++ x :: b) a.length = x := by
  simpa [rd] using rd_append_right a (x :: b) 0

theorem rd_append_cons_cons (a b : List Byte) (x y : Byte) :
    rd (a ++ x :: y :: b) (a.length + 1) = y := by
  simpa [rd] using rd_append_right a (x :: y :: b) 1

theorem rd16_append_left (a b : List Byte) (i : Nat) (h : i + 1 < a.length) :
    rd16 (a ++ b) i = rd16 a i := by
  simp [rd16, rd_append_left a b i (by omega), rd_append_left a b (i + 1) h]

theorem rd32_append_left (a b : List Byte) (i : Nat) (h : i + 3 < a.length) :
    rd32 (a ++ b) i = rd32 a i := by
  simp [rd32, rd_append_left a b i (by omega), rd_append_left a b (i + 1) (by omega),
    rd_append_left a b (i + 2) (by omega), rd_append_left a b (i + 3) h]

/-- The header fields depend on the first ten bytes only. -/
theorem hdrLength_append (hd t : List Byte) (h : hd.length = 10) :
    hdrLength (hd ++ t) = hdrLength hd := by
  unfold hdrLength; exact rd32_append_left hd t 4 (by omega)

theorem hdrSkip_append (hd t : List Byte) (h : hd.length = 10) :
    hdrSkip (hd ++ t) = hdrSkip hd := by
  unfold hdrSkip; exact rd16_append_left hd t 8 (by omega)

theorem lengthMinusSkip_append (hd t : List Byte) (h : hd.length = 10) :
    lengthMinusSkip (hd ++ t) = lengthMinusSkip hd := by
  unfold lengthMinusSkip; rw [hdrLength_append hd t h, hdrSkip_append hd t h]

/-- Copying the middle part of a region yields that part. -/
theorem memcpyFrom_middle (a xs b : List Byte) :
    memcpyFrom (a ++ xs ++ b) a.length xs.length = xs := by
  rw [memcpyFrom_eq_slice _ _ _ (by simp), List.append_assoc, List.drop_left,
    List.take_left]

/-! ## The loop -/

theorem subCopy_eq (bytesLeft : Int) (copy : Nat) :
    subCopy bytesLeft copy = toI32 (bytesLeft - copy) := by
  unfold subCopy toI32 toU32; omega

/-- Inside the `int32_t` range with a positive counter the subtraction is exact. -/
theorem subCopy_exact (bytesLeft : Int) (copy : Nat) (h0 : 0 ≤ bytesLeft)
    (h1 : bytesLeft < 2147483648) (hc : copy ≤ 2147483648) :
    subCopy bytesLeft copy = bytesLeft - copy := by
  rw [subCopy_eq]; unfold toI32; omega

/-- If the test holds before each of the next `n` passes and fails after them,
the loop makes exactly `n` passes. -/
theorem whileBytesLeft_eq_iterate (body : LoopState → LoopState) (n fuel : Nat)
    (s : LoopState) (hfuel : n ≤ fuel)
    (hrun : ∀ j, j < n → 0 < (body^[j] s).bytesLeft)
    (hstop : (body^[n] s).bytesLeft ≤ 0) :
    whileBytesLeft body fuel s = body^[n] s := by
  induction n generalizing fuel s with
  | zero =>
    cases fuel with
    | zero => rfl
    | succ fuel =>
      have h : ¬ 0 < s.bytesLeft := by simpa using hstop
      simp [whileBytesLeft, h]
  | succ n ih =>
    cases fuel with
    | zero => omega
    | succ fuel =>
      have h0 : 0 < s.bytesLeft := by simpa using hrun 0 (by omega)
      rw [whileBytesLeft, if_pos h0, Function.iterate_succ_apply]
      apply ih
      · omega
      · intro j hj
        have := hrun (j + 1) (by omega)
        rwa [Function.iterate_succ_apply] at this
      · rwa [Function.iterate_succ_apply] at hstop

/-- The same for the whole `do ... while`: `n + 1` passes. -/
theorem doWhile_eq_iterate (body : LoopState → LoopState) (n : Nat) (s : LoopState)
    (hfuel : (n : Int) ≤ (body s).bytesLeft)
    (hrun : ∀ j, 1 ≤ j → j < n + 1 → 0 < (body^[j] s).bytesLeft)
    (hstop : (body^[n + 1] s).bytesLeft ≤ 0) :
    doWhile body s = body^[n + 1] s := by
  unfold doWhile
  rw [Function.iterate_succ_apply]
  apply whileBytesLeft_eq_iterate
  · omega
  · intro j hj
    have := hrun (j + 1) (by omega) (by omega)
    rwa [Function.iterate_succ_apply] at this
  · rwa [Function.iterate_succ_apply] at hstop

set_option maxRecDepth 100000 in
/-- The two bit tests of `decompressLZRLE` split the opcodes into three ranges. -/
theorem byte_bits (b : Byte) :
    (b.val &&& 0x80 ≠ 0 ↔ 0x80 ≤ b.val) ∧
    (0x80 ≤ b.val → (b.val &&& 0x40 ≠ 0 ↔ 0xC0 ≤ b.val)) := by
  revert b; decide


theorem memcpyBack_length (libc : Libc) (buf : List Byte) (distance n : Nat) :
    (memcpyBack libc buf distance n).length = n := by
  unfold memcpyBack
  split
  · rename_i h
    simp only [List.length_take, List.length_drop]; omega
  · exact memcpyFrom_length _ _ _

/-- Every pass of the type-1 loop stores between 1 and 130 bytes, whatever the
input and the state. -/
theorem rleBody_decrements (inp : List Byte) : Decrements (rleBody inp) := by
  intro s
  have hlt := (rd inp s.inPos).isLt
  by_cases h : 0x80 ≤ (rd inp s.inPos).val
  · refine ⟨(rd inp s.inPos).val - 0x7D, by omega, by omega, ?_, ?_⟩
    · have hc : toU32 (((rd inp s.inPos).val : Int) - 0x7d) = (rd inp s.inPos).val - 0x7D := by
        unfold toU32; omega
      simp only [rleBody, if_pos h, hc, subCopy_eq]
    · have hc : toU32 (((rd inp s.inPos).val : Int) - 0x7d) = (rd inp s.inPos).val - 0x7D := by
        unfold toU32; omega
      simp [rleBody, if_pos h, hc]
  · refine ⟨(rd inp s.inPos).val + 1, by omega, by omega, ?_, ?_⟩
    · have hc : toU32 (((rd inp s.inPos).val : Int) + 1) = (rd inp s.inPos).val + 1 := by
        unfold toU32; omega
      simp only [rleBody, if_neg h, hc, subCopy_eq]
    · have hc : toU32 (((rd inp s.inPos).val : Int) + 1) = (rd inp s.inPos).val + 1 := by
        unfold toU32; omega
      simp [rleBody, if_neg h, hc, memcpyFrom_length]

/-- Every pass of the type-2 loop stores between 1 and 130 bytes, whatever the
input, the state and the library. -/
theorem lzrleBody_decrements (libc : Libc) (inp : List Byte) :
    Decrements (lzrleBody libc inp) := by
  intro s
  have hlt := (rd inp s.inPos).isLt
  have hb := byte_bits (rd inp s.inPos)
  by_cases h : (rd inp s.inPos).val &&& 0x80 ≠ 0
  · have hge := hb.1.1 h
    by_cases h4 : (rd inp s.inPos).val &&& 0x40 ≠ 0
    · have hge4 := (hb.2 hge).1 h4
      have hc : toU32 (((rd inp s.inPos).val : Int) - 0xbd) = (rd inp s.inPos).val - 0xBD := by
        unfold toU32; omega
      refine ⟨(rd inp s.inPos).val - 0xBD, by omega, by omega, ?_, ?_⟩
      · simp only [lzrleBody, if_pos h, if_pos h4, hc, subCopy_eq]
      · simp [lzrleBody, if_pos h, if_pos h4, hc]
    · have hc : toU32 (((rd inp s.inPos).val : Int) - 0x7c) = (rd inp s.inPos).val - 0x7C := by
        unfold toU32; omega
      refine ⟨(rd inp s.inPos).val - 0x7C, by omega, by omega, ?_, ?_⟩
      · simp only [lzrleBody, if_pos h, if_neg h4, hc, subCopy_eq]
      · simp [lzrleBody, if_pos h, if_neg h4, hc, memcpyBack_length]
  · have hc : toU32 (((rd inp s.inPos).val : Int) + 1) = (rd inp s.inPos).val + 1 := by
      unfold toU32; omega
    have hlt2 : (rd inp s.inPos).val < 0x80 := by
      by_contra hn
      exact h (hb.1.2 (by omega))
    refine ⟨(rd inp s.inPos).val + 1, by omega, by omega, ?_, ?_⟩
    · simp only [lzrleBody, if_neg h, hc, subCopy_eq]
    · simp [lzrleBody, if_neg h, hc, memcpyFrom_length]

/-! ## Type 1 on a well-formed stream -/

theorem toU32_of_lt (x : Int) (h0 : 0 ≤ x) (h1 : x < 4294967296) : (toU32 x : Int) = x := by
  unfold toU32; omega

theorem rleOp_count_pos (op : RleOp) (h : op.WellFormed) : 1 ≤ op.count := by
  cases op with
  | repeatRun nr v => simp only [RleOp.WellFormed] at h; simp only [RleOp.count]; omega
  | rawRun nr lits => simp only [RleOp.count]; omega

theorem rleOp_count_le (op : RleOp) (h : op.WellFormed) : op.count ≤ 130 := by
  cases op with
  | repeatRun nr v => have := nr.isLt; simp only [RleOp.count]; omega
  | rawRun nr lits => simp only [RleOp.WellFormed] at h; simp only [RleOp.count]; omega

theorem rleOp_expand_length (op : RleOp) (h : op.WellFormed) :
    op.expand.length = op.count := by
  cases op with
  | repeatRun nr v => simp [RleOp.expand, RleOp.count]
  | rawRun nr lits => simp only [RleOp.WellFormed] at h; simp [RleOp.expand, RleOp.count, h.2]

/-- One pass over a well-formed opcode found at the cursor. -/
theorem rleBody_at (pre tail : List Byte) (op : RleOp) (s : LoopState)
    (hwf : op.WellFormed) (hpos : s.inPos = pre.length) :
    rleBody (pre ++ (op.encode ++ tail)) s
      = { inPos := pre.length + op.encode.length
          bytesLeft := subCopy s.bytesLeft op.count
          out := s.out ++ op.expand } := by
  cases op with
  | repeatRun nr v =>
    simp only [RleOp.WellFormed] at hwf
    have hnr : rd (pre ++ ([nr, v] ++ tail)) pre.length = nr := rd_append_cons pre _ nr
    have hv : rd (pre ++ ([nr, v] ++ tail)) (pre.length + 1) = v :=
      rd_append_cons_cons pre _ nr v
    have hc : toU32 ((nr.val : Int) - 0x7d) = nr.val - 0x7D := by
      have := nr.isLt; unfold toU32; omega
    simp only [rleBody, RleOp.encode, RleOp.count, RleOp.expand, hpos, hnr, hv, if_pos hwf, hc,
      List.length_cons, List.length_nil]
  | rawRun nr lits =>
    simp only [RleOp.WellFormed] at hwf
    have hnr : rd (pre ++ ((nr :: lits) ++ tail)) pre.length = nr := rd_append_cons pre _ nr
    have hc : toU32 ((nr.val : Int) + 1) = nr.val + 1 := by
      have := nr.isLt; unfold toU32; omega
    have hcp : memcpyFrom (pre ++ ((nr :: lits) ++ tail)) (pre.length + 1) (nr.val + 1)
        = lits := by
      have h := memcpyFrom_middle (pre ++ [nr]) lits tail
      simpa [hwf.2] using h
    have hn : ¬ (0x80 ≤ nr.val) := by omega
    simp only [rleBody, RleOp.encode, RleOp.count, RleOp.expand, hpos, hnr, if_neg hn, hc, hcp,
      List.length_cons, hwf.2]

theorem countRle_take_le (ops : List RleOp) (k : Nat) :
    countRle (ops.take k) ≤ countRle ops := by
  induction ops generalizing k with
  | nil => simp [countRle]
  | cons op ops ih =>
    cases k with
    | zero => simp [countRle]
    | succ k => simp only [List.take_succ_cons, countRle]; have := ih k; omega

theorem countRle_take_lt (ops : List RleOp) (k : Nat) (hwf : ∀ op ∈ ops, op.WellFormed)
    (hk : k < ops.length) : countRle (ops.take k) < countRle ops := by
  induction ops generalizing k with
  | nil => simp at hk
  | cons op ops ih =>
    have h1 := rleOp_count_pos op (hwf op (by simp))
    cases k with
    | zero => simp only [List.take_zero, countRle]; omega
    | succ k =>
      simp only [List.take_succ_cons, countRle]
      have := ih k (fun o ho => hwf o (by simp [ho])) (by simpa using hk)
      omega

theorem length_le_countRle (ops : List RleOp) (hwf : ∀ op ∈ ops, op.WellFormed) :
    ops.length ≤ countRle ops := by
  induction ops with
  | nil => simp
  | cons op ops ih =>
    have h1 := rleOp_count_pos op (hwf op (by simp))
    have := ih (fun o ho => hwf o (by simp [ho]))
    simp only [List.length_cons, countRle]; omega

theorem expandRle_length (ops : List RleOp) (hwf : ∀ op ∈ ops, op.WellFormed) :
    (expandRle ops).length = countRle ops := by
  induction ops with
  | nil => rfl
  | cons op ops ih =>
    simp [expandRle, countRle, rleOp_expand_length op (hwf op (by simp)),
      ih (fun o ho => hwf o (by simp [ho]))]

/-- The loop state after `k` passes over a well-formed stream whose counts do
not exceed `bytesLeft`. -/
theorem rleBody_iterate (rest : List Byte) (ops : List RleOp) (pre : List Byte)
    (s : LoopState) (k : Nat) (hwf : ∀ op ∈ ops, op.WellFormed) (hk : k ≤ ops.length)
    (hpos : s.inPos = pre.length) (hsum : (countRle ops : Int) ≤ s.bytesLeft)
    (hr : s.bytesLeft < 2147483648) :
    (rleBody (pre ++ (encodeRle ops ++ rest)))^[k] s
      = { inPos := pre.length + (encodeRle (ops.take k)).length
          bytesLeft := s.bytesLeft - countRle (ops.take k)
          out := s.out ++ expandRle (ops.take k) } := by
  induction ops generalizing pre s k with
  | nil =>
    have hk0 : k = 0 := by simpa using hk
    subst hk0
    cases s
    simp_all [encodeRle, countRle, expandRle]
  | cons op ops ih =>
    cases k with
    | zero =>
      cases s
      simp_all [encodeRle, countRle, expandRle]
    | succ k =>
      have hop := hwf op (by simp)
      have hc := rleOp_count_le op hop
      simp only [countRle] at hsum
      rw [Function.iterate_succ_apply]
      have hb : rleBody (pre ++ (encodeRle (op :: ops) ++ rest)) s
          = { inPos := (pre ++ op.encode).length
              bytesLeft := s.bytesLeft - op.count
              out := s.out ++ op.expand } := by
        have h := rleBody_at pre (encodeRle ops ++ rest) op s hop hpos
        rw [subCopy_exact _ _ (by omega) hr (by omega)] at h
        simpa [encodeRle, List.append_assoc] using h
      have hin : pre ++ (encodeRle (op :: ops) ++ rest)
          = (pre ++ op.encode) ++ (encodeRle ops ++ rest) := by
        simp [encodeRle, List.append_assoc]
      rw [hb, hin]
      rw [ih (pre ++ op.encode) _ k (fun o ho => hwf o (by simp [ho])) (by simpa using hk) rfl
        (by simp only; omega) (by simp only; omega)]
      simp only [List.take_succ_cons, encodeRle, countRle, expandRle, List.length_append,
        List.append_assoc, Nat.cast_add]
      congr 1
      · omega
      · omega

/-- The state before the first pass, for a block given by its parts. -/
theorem rleInit_block (hd junk t : List Byte) (hhd : hd.length = 10)
    (hskip : hdrSkip hd ≤ hdrLength hd) (hlt : hdrLength hd - hdrSkip hd < 2147483648)
    (hjunk : junk.length = hdrSkip hd) :
    rleInit (hd ++ junk ++ t)
      = { inPos := (hd ++ junk).length
          bytesLeft := ((hdrLength hd - hdrSkip hd : Nat) : Int)
          out := [] } := by
  unfold rleInit
  rw [List.append_assoc, hdrSkip_append hd _ hhd, lengthMinusSkip_append hd _ hhd,
    lengthMinusSkip_eq hd hskip hlt]
  simp [sizeofCmpHeader, hhd, hjunk, Nat.add_comm]

/-- The state of `decompressRLE` after `k` passes over a well-formed block. -/
theorem rle_iterate_block (hd junk rest : List Byte) (ops : List RleOp) (k : Nat)
    (hhd : hd.length = 10) (hjunk : junk.length = hdrSkip hd)
    (hwf : ∀ op ∈ ops, op.WellFormed) (hsum : countRle ops + hdrSkip hd = hdrLength hd)
    (hlt : hdrLength hd - hdrSkip hd < 2147483648) (hk : k ≤ ops.length) :
    (rleBody (hd ++ junk ++ encodeRle ops ++ rest))^[k]
        (rleInit (hd ++ junk ++ encodeRle ops ++ rest))
      = { inPos := 10 + hdrSkip hd + (encodeRle (ops.take k)).length
          bytesLeft := ((hdrLength hd - hdrSkip hd : Nat) : Int) - countRle (ops.take k)
          out := expandRle (ops.take k) } := by
  have hin : hd ++ junk ++ encodeRle ops ++ rest = (hd ++ junk) ++ (encodeRle ops ++ rest) := by
    simp [List.append_assoc]
  have hinit := rleInit_block hd junk (encodeRle ops ++ rest) hhd (by omega) hlt hjunk
  rw [hin, hinit]
  rw [rleBody_iterate rest ops (hd ++ junk) _ k hwf hk rfl (by simp only; omega)
    (by simp only; omega)]
  simp [hhd, hjunk]

/-- The loop of `decompressRLE` over a well-formed block makes one pass per
opcode and is left with `bytesLeft = 0`. -/
theorem rleFinal_block (hd junk rest : List Byte) (ops : List RleOp)
    (hhd : hd.length = 10) (hjunk : junk.length = hdrSkip hd) (hne : ops ≠ [])
    (hwf : ∀ op ∈ ops, op.WellFormed) (hsum : countRle ops + hdrSkip hd = hdrLength hd)
    (hlt : hdrLength hd - hdrSkip hd < 2147483648) :
    rleFinal (hd ++ junk ++ encodeRle ops ++ rest)
      = (rleBody (hd ++ junk ++ encodeRle ops ++ rest))^[ops.length]
          (rleInit (hd ++ junk ++ encodeRle ops ++ rest)) ∧
    rleFinal (hd ++ junk ++ encodeRle ops ++ rest)
      = { inPos := 10 + hdrSkip hd + (encodeRle ops).length
          bytesLeft := 0
          out := expandRle ops } := by
  have hit := fun k hk => rle_iterate_block hd junk rest ops k hhd hjunk hwf hsum hlt hk
  obtain ⟨n, hn⟩ : ∃ n, ops.length = n + 1 := by
    cases ops with
    | nil => exact absurd rfl hne
    | cons o os => exact ⟨os.length, rfl⟩
  have hfin : rleFinal (hd ++ junk ++ encodeRle ops ++ rest)
      = (rleBody (hd ++ junk ++ encodeRle ops ++ rest))^[ops.length]
          (rleInit (hd ++ junk ++ encodeRle ops ++ rest)) := by
    unfold rleFinal
    rw [hn]
    apply doWhile_eq_iterate
    · have h1 := hit 1 (by omega)
      rw [Function.iterate_one] at h1
      rw [h1]
      have hc : n + countRle (ops.take 1) ≤ countRle ops := by
        cases ops with
        | nil => exact absurd rfl hne
        | cons o os =>
          have := length_le_countRle os (fun x hx => hwf x (by simp [hx]))
          simp only [List.length_cons] at hn
          simp only [List.take_succ_cons, List.take_zero, countRle]; omega
      simp only
      omega
    · intro j hj1 hj2
      rw [hit j (by omega)]
      have := countRle_take_lt ops j hwf (by omega)
      simp only
      omega
    · rw [← hn, hit ops.length (Nat.le_refl _)]
      simp only [List.take_length]
      omega
  refine ⟨hfin, ?_⟩
  rw [hfin, hit ops.length (Nat.le_refl _)]
  simp only [List.take_length]
  congr 1
  omega

theorem countRle_replicate (n : Nat) (op : RleOp) :
    countRle (List.replicate n op) = n * op.count := by
  induction n with
  | zero => simp [countRle]
  | succ n ih => simp [List.replicate_succ, countRle, ih, Nat.succ_mul, Nat.add_comm]

/-! ## Type 2 on a well-formed stream -/

theorem lzOp_count_pos (e : Nat) (op : LzOp) (h : op.WellFormed e) : 1 ≤ op.count := by
  cases op with
  | repeatRun op v =>
    simp only [LzOp.WellFormed] at h
    have := ((byte_bits op).2 ((byte_bits op).1.1 h.1)).1 h.2
    simp only [LzOp.count]; omega
  | backRef op lo hi =>
    simp only [LzOp.WellFormed] at h
    have := (byte_bits op).1.1 h.1
    simp only [LzOp.count]; omega
  | rawRun op lits => simp only [LzOp.count]; omega

theorem lzOp_count_le (e : Nat) (op : LzOp) (h : op.WellFormed e) : op.count ≤ 130 := by
  cases op with
  | repeatRun op v => have := op.isLt; simp only [LzOp.count]; omega
  | backRef op lo hi =>
    simp only [LzOp.WellFormed] at h
    have h1 := (byte_bits op).2 ((byte_bits op).1.1 h.1)
    simp only [LzOp.count]; omega
  | rawRun op lits =>
    simp only [LzOp.WellFormed] at h
    have h1 := (byte_bits op).1
    simp only [LzOp.count]; omega

theorem lzOp_expand_length (acc : List Byte) (op : LzOp) (h : op.WellFormed acc.length) :
    (op.expand acc).length = op.count := by
  cases op with
  | repeatRun op v => simp [LzOp.expand, LzOp.count]
  | backRef op lo hi =>
    simp only [LzOp.WellFormed] at h
    simp only [LzOp.expand, LzOp.count, List.length_take, List.length_drop]
    omega
  | rawRun op lits => simp only [LzOp.WellFormed] at h; simp [LzOp.expand, LzOp.count, h.2]

/-- One pass over a well-formed opcode found at the cursor. -/
theorem lzrleBody_at (libc : Libc) (pre tail : List Byte) (op : LzOp) (s : LoopState)
    (hwf : op.WellFormed s.out.length) (hpos : s.inPos = pre.length) :
    lzrleBody libc (pre ++ (op.encode ++ tail)) s
      = { inPos := pre.length + op.encode.length
          bytesLeft := subCopy s.bytesLeft op.count
          out := s.out ++ op.expand s.out } := by
  cases op with
  | repeatRun op v =>
    simp only [LzOp.WellFormed] at hwf
    have hge := ((byte_bits op).2 ((byte_bits op).1.1 hwf.1)).1 hwf.2
    have hop : rd (pre ++ ([op, v] ++ tail)) pre.length = op := rd_append_cons pre _ op
    have hv : rd (pre ++ ([op, v] ++ tail)) (pre.length + 1) = v :=
      rd_append_cons_cons pre _ op v
    have hc : toU32 ((op.val : Int) - 0xbd) = op.val - 0xBD := by
      have := op.isLt; unfold toU32; omega
    simp only [lzrleBody, LzOp.encode, LzOp.count, LzOp.expand, hpos, hop, hv, if_pos hwf.1,
      if_pos hwf.2, hc, List.length_cons, List.length_nil]
  | backRef op lo hi =>
    simp only [LzOp.WellFormed] at hwf
    have hge := (byte_bits op).1.1 hwf.1
    have hop : rd (pre ++ ([op, lo, hi] ++ tail)) pre.length = op := rd_append_cons pre _ op
    have hlo : rd (pre ++ ([op, lo, hi] ++ tail)) (pre.length + 1) = lo :=
      rd_append_cons_cons pre _ op lo
    have hhi : rd (pre ++ ([op, lo, hi] ++ tail)) (pre.length + 1 + 1) = hi := by
      rw [Nat.add_assoc]; exact (rd_append_right pre _ 2).trans rfl
    have hc : toU32 ((op.val : Int) - 0x7c) = op.val - 0x7C := by
      have := op.isLt; unfold toU32; omega
    have hd : rd16 (pre ++ ([op, lo, hi] ++ tail)) (pre.length + 1) = lo.val + 256 * hi.val := by
      simp only [rd16, hlo, hhi]
    simp only [lzrleBody, LzOp.encode, LzOp.count, LzOp.expand, hpos, hop, hd, if_pos hwf.1,
      if_neg hwf.2.1, hc, memcpyBack, if_pos hwf.2.2, List.length_cons, List.length_nil]
  | rawRun op lits =>
    simp only [LzOp.WellFormed] at hwf
    have hop : rd (pre ++ ((op :: lits) ++ tail)) pre.length = op := rd_append_cons pre _ op
    have hc : toU32 ((op.val : Int) + 1) = op.val + 1 := by
      have := op.isLt; unfold toU32; omega
    have hcp : memcpyFrom (pre ++ ((op :: lits) ++ tail)) (pre.length + 1) (op.val + 1)
        = lits := by
      have h := memcpyFrom_middle (pre ++ [op]) lits tail
      simpa [hwf.2] using h
    simp only [lzrleBody, LzOp.encode, LzOp.count, LzOp.expand, hpos, hop, if_neg hwf.1, hc, hcp,
      List.length_cons, hwf.2]

theorem countLz_take_lt (e : Nat) (ops : List LzOp) (k : Nat) (hwf : WellFormedLz e ops)
    (hk : k < ops.length) : countLz (ops.take k) < countLz ops := by
  induction ops generalizing e k with
  | nil => simp at hk
  | cons op ops ih =>
    have h1 := lzOp_count_pos e op hwf.1
    cases k with
    | zero => simp only [List.take_zero, countLz]; omega
    | succ k =>
      simp only [List.take_succ_cons, countLz]
      have := ih _ k hwf.2 (by simpa using hk)
      omega

theorem length_le_countLz (e : Nat) (ops : List LzOp) (hwf : WellFormedLz e ops) :
    ops.length ≤ countLz ops := by
  induction ops generalizing e with
  | nil => simp
  | cons op ops ih =>
    have h1 := lzOp_count_pos e op hwf.1
    have := ih _ hwf.2
    simp only [List.length_cons, countLz]; omega

theorem expandLz_length (acc : List Byte) (ops : List LzOp)
    (hwf : WellFormedLz acc.length ops) :
    (expandLz acc ops).length = acc.length + countLz ops := by
  induction ops generalizing acc with
  | nil => rfl
  | cons op ops ih =>
    have hl := lzOp_expand_length acc op hwf.1
    have hwf2 : WellFormedLz (acc ++ op.expand acc).length ops := by
      rw [List.length_append, hl]; exact hwf.2
    simp only [expandLz, countLz]
    rw [ih _ hwf2, List.length_append, hl]
    omega

/-- The loop state after `k` passes over a well-formed stream whose counts do
not exceed `bytesLeft`. -/
theorem lzrleBody_iterate (libc : Libc) (rest : List Byte) (ops : List LzOp)
    (pre : List Byte) (s : LoopState) (k : Nat) (hwf : WellFormedLz s.out.length ops)
    (hk : k ≤ ops.length) (hpos : s.inPos = pre.length)
    (hsum : (countLz ops : Int) ≤ s.bytesLeft) (hr : s.bytesLeft < 2147483648) :
    (lzrleBody libc (pre ++ (encodeLz ops ++ rest)))^[k] s
      = { inPos := pre.length + (encodeLz (ops.take k)).length
          bytesLeft := s.bytesLeft - countLz (ops.take k)
          out := expandLz s.out (ops.take k) } := by
  induction ops generalizing pre s k with
  | nil =>
    have hk0 : k = 0 := by simpa using hk
    subst hk0
    cases s
    simp_all [encodeLz, countLz, expandLz]
  | cons op ops ih =>
    cases k with
    | zero =>
      cases s
      simp_all [encodeLz, countLz, expandLz]
    | succ k =>
      have hop := hwf.1
      have hc := lzOp_count_le _ op hop
      have hl := lzOp_expand_length s.out op hop
      simp only [countLz] at hsum
      rw [Function.iterate_succ_apply]
      have hb : lzrleBody libc (pre ++ (encodeLz (op :: ops) ++ rest)) s
          = { inPos := (pre ++ op.encode).length
              bytesLeft := s.bytesLeft - op.count
              out := s.out ++ op.expand s.out } := by
        have h := lzrleBody_at libc pre (encodeLz ops ++ rest) op s hop hpos
        rw [subCopy_exact _ _ (by omega) hr (by omega)] at h
        simpa [encodeLz, List.append_assoc] using h
      have hin : pre ++ (encodeLz (op :: ops) ++ rest)
          = (pre ++ op.encode) ++ (encodeLz ops ++ rest) := by
        simp [encodeLz, List.append_assoc]
      rw [hb, hin]
      rw [ih (pre ++ op.encode) _ k
        (by simp only [List.length_append, hl]; exact hwf.2) (by simpa using hk) rfl
        (by simp only; omega) (by simp only; omega)]
      simp only [List.take_succ_cons, encodeLz, countLz, expandLz, List.length_append,
        Nat.cast_add]
      congr 1
      · omega
      · omega

/-- The state before the first pass, for a block given by its parts. -/
theorem lzrleInit_block (hd junk t : List Byte) (hhd : hd.length = 10)
    (hskip : hdrSkip hd ≤ hdrLength hd) (hlt : hdrLength hd - hdrSkip hd < 2147483648)
    (hjunk : junk.length = hdrSkip hd) :
    lzrleInit (hd ++ junk ++ t)
      = { inPos := (hd ++ junk).length
          bytesLeft := ((hdrLength hd - hdrSkip hd : Nat) : Int)
          out := [] } := by
  unfold lzrleInit
  rw [List.append_assoc, hdrSkip_append hd _ hhd, lengthMinusSkip_append hd _ hhd,
    lengthMinusSkip_eq hd hskip hlt]
  simp [hhd, hjunk, Nat.add_comm]

/-- The state of `decompressLZRLE` after `k` passes over a well-formed block. -/
theorem lzrle_iterate_block (libc : Libc) (hd junk rest : List Byte) (ops : List LzOp)
    (k : Nat) (hhd : hd.length = 10) (hjunk : junk.length = hdrSkip hd)
    (hwf : WellFormedLz 0 ops) (hsum : countLz ops + hdrSkip hd = hdrLength hd)
    (hlt : hdrLength hd - hdrSkip hd < 2147483648) (hk : k ≤ ops.length) :
    (lzrleBody libc (hd ++ junk ++ encodeLz ops ++ rest))^[k]
        (lzrleInit (hd ++ junk ++ encodeLz ops ++ rest))
      = { inPos := 10 + hdrSkip hd + (encodeLz (ops.take k)).length
          bytesLeft := ((hdrLength hd - hdrSkip hd : Nat) : Int) - countLz (ops.take k)
          out := expandLz [] (ops.take k) } := by
  have hin : hd ++ junk ++ encodeLz ops ++ rest = (hd ++ junk) ++ (encodeLz ops ++ rest) := by
    simp [List.append_assoc]
  have hinit := lzrleInit_block hd junk (encodeLz ops ++ rest) hhd (by omega) hlt hjunk
  rw [hin, hinit]
  rw [lzrleBody_iterate libc rest ops (hd ++ junk)
    { inPos := (hd ++ junk).length
      bytesLeft := ((hdrLength hd - hdrSkip hd : Nat) : Int)
      out := [] } k hwf hk rfl (by simp only; omega)
    (by simp only; omega)]
  simp [hhd, hjunk]

/-- The loop of `decompressLZRLE` over a well-formed block makes one pass per
opcode and is left with `bytesLeft = 0`. -/
theorem lzrleFinal_block (libc : Libc) (hd junk rest : List Byte) (ops : List LzOp)
    (hhd : hd.length = 10) (hjunk : junk.length = hdrSkip hd) (hne : ops ≠ [])
    (hwf : WellFormedLz 0 ops) (hsum : countLz ops + hdrSkip hd = hdrLength hd)
    (hlt : hdrLength hd - hdrSkip hd < 2147483648) :
    lzrleFinal libc (hd ++ junk ++ encodeLz ops ++ rest)
      = (lzrleBody libc (hd ++ junk ++ encodeLz ops ++ rest))^[ops.length]
          (lzrleInit (hd ++ junk ++ encodeLz ops ++ rest)) ∧
    lzrleFinal libc (hd ++ junk ++ encodeLz ops ++ rest)
      = { inPos := 10 + hdrSkip hd + (encodeLz ops).length
          bytesLeft := 0
          out := expandLz [] ops } := by
  have hit := fun k hk =>
    lzrle_iterate_block libc hd junk rest ops k hhd hjunk hwf hsum hlt hk
  obtain ⟨n, hn⟩ : ∃ n, ops.length = n + 1 := by
    cases ops with
    | nil => exact absurd rfl hne
    | cons o os => exact ⟨os.length, rfl⟩
  have hfin : lzrleFinal libc (hd ++ junk ++ encodeLz ops ++ rest)
      = (lzrleBody libc (hd ++ junk ++ encodeLz ops ++ rest))^[ops.length]
          (lzrleInit (hd ++ junk ++ encodeLz ops ++ rest)) := by
    unfold lzrleFinal
    rw [hn]
    apply doWhile_eq_iterate
    · have h1 := hit 1 (by omega)
      rw [Function.iterate_one] at h1
      rw [h1]
      have hc : n + countLz (ops.take 1) ≤ countLz ops := by
        cases ops with
        | nil => exact absurd rfl hne
        | cons o os =>
          have := length_le_countLz _ os hwf.2
          simp only [List.length_cons] at hn
          simp only [List.take_succ_cons, List.take_zero, countLz]; omega
      simp only
      omega
    · intro j hj1 hj2
      rw [hit j (by omega)]
      have := countLz_take_lt 0 ops j hwf (by omega)
      simp only
      omega
    · rw [← hn, hit ops.length (Nat.le_refl _)]
      simp only [List.take_length]
      omega
  refine ⟨hfin, ?_⟩
  rw [hfin, hit ops.length (Nat.le_refl _)]
  simp only [List.take_length]
  congr 1
  omega

/-- What `decompressRLE` hands back on a well-formed block. -/
theorem decompressRLE_block (hd junk rest : List Byte) (ops : List RleOp)
    (hhd : hd.length = 10) (hjunk : junk.length = hdrSkip hd) (hne : ops ≠ [])
    (hwf : ∀ op ∈ ops, op.WellFormed) (hsum : countRle ops + hdrSkip hd = hdrLength hd)
    (hlt : hdrLength hd - hdrSkip hd < 2147483648) :
    decompressRLE (hd ++ junk ++ encodeRle ops ++ rest)
      = { ret := ((hdrLength hd - hdrSkip hd : Nat) : Int), out := expandRle ops } := by
  unfold decompressRLE
  rw [(rleFinal_block hd junk rest ops hhd hjunk hne hwf hsum hlt).2, List.append_assoc,
    List.append_assoc, lengthMinusSkip_append hd _ hhd, lengthMinusSkip_eq hd (by omega) hlt]

/-- What `decompressLZRLE` hands back on a well-formed block. -/
theorem decompressLZRLE_block (libc : Libc) (hd junk rest : List Byte) (ops : List LzOp)
    (hhd : hd.length = 10) (hjunk : junk.length = hdrSkip hd) (hne : ops ≠ [])
    (hwf : WellFormedLz 0 ops) (hsum : countLz ops + hdrSkip hd = hdrLength hd)
    (hlt : hdrLength hd - hdrSkip hd < 2147483648) :
    decompressLZRLE libc (hd ++ junk ++ encodeLz ops ++ rest)
      = { ret := ((hdrLength hd - hdrSkip hd : Nat) : Int), out := expandLz [] ops } := by
  unfold decompressLZRLE
  rw [(lzrleFinal_block libc hd junk rest ops hhd hjunk hne hwf hsum hlt).2, List.append_assoc,
    List.append_assoc, lengthMinusSkip_append hd _ hhd, lengthMinusSkip_eq hd (by omega) hlt]

/-! ## The counter `bytesLeft` on well-formed blocks -/

/-- The passes of `decompressRLE` over a well-formed block: before and after
each pass the bytes stored and `bytesLeft` add up to `length - skip`, the test
holds between passes, and the loop is left after the last opcode with
`bytesLeft = 0`. -/
theorem rle_bytesLeft_invariant (hd junk rest : List Byte) (ops : List RleOp)
    (hhd : hd.length = 10) (hjunk : junk.length = hdrSkip hd) (hne : ops ≠ [])
    (hwf : ∀ op ∈ ops, op.WellFormed) (hsum : countRle ops + hdrSkip hd = hdrLength hd)
    (hlt : hdrLength hd - hdrSkip hd < 2147483648) :
    (∀ k, k ≤ ops.length →
      (((rleBody (hd ++ junk ++ encodeRle ops ++ rest))^[k]
          (rleInit (hd ++ junk ++ encodeRle ops ++ rest))).out.length : Int)
        + ((rleBody (hd ++ junk ++ encodeRle ops ++ rest))^[k]
            (rleInit (hd ++ junk ++ encodeRle ops ++ rest))).bytesLeft
        = ((hdrLength hd - hdrSkip hd : Nat) : Int) ∧
      (1 ≤ k → k < ops.length →
        0 < ((rleBody (hd ++ junk ++ encodeRle ops ++ rest))^[k]
            (rleInit (hd ++ junk ++ encodeRle ops ++ rest))).bytesLeft)) ∧
    rleFinal (hd ++ junk ++ encodeRle ops ++ rest)
      = (rleBody (hd ++ junk ++ encodeRle ops ++ rest))^[ops.length]
          (rleInit (hd ++ junk ++ encodeRle ops ++ rest)) ∧
    (rleFinal (hd ++ junk ++ encodeRle ops ++ rest)).bytesLeft = 0 ∧
    ((decompressRLE (hd ++ junk ++ encodeRle ops ++ rest)).out.length : Int)
      = ((hdrLength hd - hdrSkip hd : Nat) : Int) ∧
    (decompressRLE (hd ++ junk ++ encodeRle ops ++ rest)).ret
      = ((hdrLength hd - hdrSkip hd : Nat) : Int) := by
  have hfin := rleFinal_block hd junk rest ops hhd hjunk hne hwf hsum hlt
  have hdec := decompressRLE_block hd junk rest ops hhd hjunk hne hwf hsum hlt
  refine ⟨?_, hfin.1, ?_, ?_, ?_⟩
  · intro k hk
    rw [rle_iterate_block hd junk rest ops k hhd hjunk hwf hsum hlt hk]
    have hl := expandRle_length (ops.take k) (fun o ho => hwf o (List.mem_of_mem_take ho))
    refine ⟨?_, ?_⟩
    · simp only [hl]; omega
    · intro _ hk2
      have := countRle_take_lt ops k hwf hk2
      simp only; omega
  · rw [hfin.2]
  · rw [hdec]; simp only [expandRle_length ops hwf]; omega
  · rw [hdec]

theorem lzOp_shaped_count_pos (op : LzOp) (h : op.Shaped) : 1 ≤ op.count := by
  cases op with
  | repeatRun op v =>
    simp only [LzOp.Shaped] at h
    have := ((byte_bits op).2 ((byte_bits op).1.1 h.1)).1 h.2
    simp only [LzOp.count]; omega
  | backRef op lo hi =>
    simp only [LzOp.Shaped] at h
    have := (byte_bits op).1.1 h.1
    simp only [LzOp.count]; omega
  | rawRun op lits => simp only [LzOp.count]; omega

theorem lzOp_shaped_count_le (op : LzOp) (h : op.Shaped) : op.count ≤ 130 := by
  cases op with
  | repeatRun op v => have := op.isLt; simp only [LzOp.count]; omega
  | backRef op lo hi =>
    simp only [LzOp.Shaped] at h
    have h1 := (byte_bits op).2 ((byte_bits op).1.1 h.1)
    simp only [LzOp.count]; omega
  | rawRun op lits =>
    simp only [LzOp.Shaped] at h
    have h1 := (byte_bits op).1
    simp only [LzOp.count]; omega

/-- One pass over an opcode of the right shape found at the cursor: the cursor
moves behind it, `bytesLeft` is lowered by its count, and that many bytes are
stored, whatever the library does for a back-reference. -/
theorem lzrleBody_at_shaped (libc : Libc) (pre tail : List Byte) (op : LzOp) (s : LoopState)
    (hsh : op.Shaped) (hpos : s.inPos = pre.length) :
    (lzrleBody libc (pre ++ (op.encode ++ tail)) s).inPos = pre.length + op.encode.length ∧
    (lzrleBody libc (pre ++ (op.encode ++ tail)) s).bytesLeft = subCopy s.bytesLeft op.count ∧
    (lzrleBody libc (pre ++ (op.encode ++ tail)) s).out.length
      = s.out.length + op.count := by
  cases op with
  | repeatRun op v =>
    have h := lzrleBody_at libc pre tail (.repeatRun op v) s hsh hpos
    rw [h]
    simp [LzOp.expand, LzOp.count]
  | backRef op lo hi =>
    simp only [LzOp.Shaped] at hsh
    have hge := (byte_bits op).1.1 hsh.1
    have hop : rd (pre ++ ([op, lo, hi] ++ tail)) pre.length = op := rd_append_cons pre _ op
    have hc : toU32 ((op.val : Int) - 0x7c) = op.val - 0x7C := by
      have := op.isLt; unfold toU32; omega
    simp only [lzrleBody, LzOp.encode, LzOp.count, hpos, hop, if_pos hsh.1, if_neg hsh.2, hc,
      List.length_cons, List.length_nil, List.length_append, memcpyBack_length]
    exact ⟨trivial, trivial, trivial⟩
  | rawRun op lits =>
    have h := lzrleBody_at libc pre tail (.rawRun op lits) s hsh hpos
    rw [h]
    simp only [LzOp.Shaped] at hsh
    simp [LzOp.expand, LzOp.count, hsh.2]

theorem countLz_take_lt_shaped (ops : List LzOp) (k : Nat) (hsh : ∀ op ∈ ops, op.Shaped)
    (hk : k < ops.length) : countLz (ops.take k) < countLz ops := by
  induction ops generalizing k with
  | nil => simp at hk
  | cons op ops ih =>
    have h1 := lzOp_shaped_count_pos op (hsh op (by simp))
    cases k with
    | zero => simp only [List.take_zero, countLz]; omega
    | succ k =>
      simp only [List.take_succ_cons, countLz]
      have := ih k (fun o ho => hsh o (by simp [ho])) (by simpa using hk)
      omega

theorem length_le_countLz_shaped (ops : List LzOp) (hsh : ∀ op ∈ ops, op.Shaped) :
    ops.length ≤ countLz ops := by
  induction ops with
  | nil => simp
  | cons op ops ih =>
    have h1 := lzOp_shaped_count_pos op (hsh op (by simp))
    have := ih (fun o ho => hsh o (by simp [ho]))
    simp only [List.length_cons, countLz]; omega

/-- The cursor, the counter and the number of bytes stored after `k` passes
over a stream of opcodes of the right shape whose counts do not exceed
`bytesLeft`. -/
theorem lzrleBody_iterate_shaped (libc : Libc) (rest : List Byte) (ops : List LzOp)
    (pre : List Byte) (s : LoopState) (k : Nat) (hsh : ∀ op ∈ ops, op.Shaped)
    (hk : k ≤ ops.length) (hpos : s.inPos = pre.length)
    (hsum : (countLz ops : Int) ≤ s.bytesLeft) (hr : s.bytesLeft < 2147483648) :
    ((lzrleBody libc (pre ++ (encodeLz ops ++ rest)))^[k] s).inPos
      = pre.length + (encodeLz (ops.take k)).length ∧
    ((lzrleBody libc (pre ++ (encodeLz ops ++ rest)))^[k] s).bytesLeft
      = s.bytesLeft - countLz (ops.take k) ∧
    ((lzrleBody libc (pre ++ (encodeLz ops ++ rest)))^[k] s).out.length
      = s.out.length + countLz (ops.take k) := by
  induction ops generalizing pre s k with
  | nil =>
    have hk0 : k = 0 := by simpa using hk
    subst hk0
    simp [encodeLz, countLz, hpos]
  | cons op ops ih =>
    cases k with
    | zero => simp [encodeLz, countLz, hpos]
    | succ k =>
      have hop := hsh op (by simp)
      have hc := lzOp_shaped_count_le op hop
      simp only [countLz] at hsum
      rw [Function.iterate_succ_apply]
      have hin : pre ++ (encodeLz (op :: ops) ++ rest)
          = pre ++ (op.encode ++ (encodeLz ops ++ rest)) := by
        simp [encodeLz, List.append_assoc]
      have hin2 : pre ++ (encodeLz (op :: ops) ++ rest)
          = (pre ++ op.encode) ++ (encodeLz ops ++ rest) := by
        simp [encodeLz, List.append_assoc]
      have hb := lzrleBody_at_shaped libc pre (encodeLz ops ++ rest) op s hop hpos
      rw [← hin] at hb
      rw [subCopy_exact _ _ (by omega) hr (by omega)] at hb
      obtain ⟨hb1, hb2, hb3⟩ := hb
      have hi := ih (pre ++ op.encode)
        (lzrleBody libc (pre ++ (encodeLz (op :: ops) ++ rest)) s) k
        (fun o ho => hsh o (by simp [ho])) (by simpa using hk)
        (by rw [hb1, List.length_append]) (by rw [hb2]; omega) (by rw [hb2]; omega)
      rw [← hin2] at hi
      obtain ⟨hi1, hi2, hi3⟩ := hi
      refine ⟨?_, ?_, ?_⟩
      · rw [hi1]
        simp only [List.take_succ_cons, encodeLz, List.length_append]; omega
      · rw [hi2, hb2]
        simp only [List.take_succ_cons, countLz, Nat.cast_add]; omega
      · rw [hi3, hb3]
        simp only [List.take_succ_cons, countLz]; omega

/-- The passes of `decompressLZRLE`, with any library, over a block whose
opcodes have the right shape and counts summing to `length - skip`: before and
after each pass the bytes stored and `bytesLeft` add up to `length - skip`, the
test holds between passes, and the loop is left after the last opcode with
`bytesLeft = 0`. -/
theorem lzrle_bytesLeft_invariant (libc : Libc) (hd junk rest : List Byte) (ops : List LzOp)
    (hhd : hd.length = 10) (hjunk : junk.length = hdrSkip hd) (hne : ops ≠ [])
    (hsh : ∀ op ∈ ops, op.Shaped) (hsum : countLz ops + hdrSkip hd = hdrLength hd)
    (hlt : hdrLength hd - hdrSkip hd < 2147483648) :
    (∀ k, k ≤ ops.length →
      (((lzrleBody libc (hd ++ junk ++ encodeLz ops ++ rest))^[k]
          (lzrleInit (hd ++ junk ++ encodeLz ops ++ rest))).out.length : Int)
        + ((lzrleBody libc (hd ++ junk ++ encodeLz ops ++ rest))^[k]
            (lzrleInit (hd ++ junk ++ encodeLz ops ++ rest))).bytesLeft
        = ((hdrLength hd - hdrSkip hd : Nat) : Int) ∧
      (1 ≤ k → k < ops.length →
        0 < ((lzrleBody libc (hd ++ junk ++ encodeLz ops ++ rest))^[k]
            (lzrleInit (hd ++ junk ++ encodeLz ops ++ rest))).bytesLeft)) ∧
    lzrleFinal libc (hd ++ junk ++ encodeLz ops ++ rest)
      = (lzrleBody libc (hd ++ junk ++ encodeLz ops ++ rest))^[ops.length]
          (lzrleInit (hd ++ junk ++ encodeLz ops ++ rest)) ∧
    (lzrleFinal libc (hd ++ junk ++ encodeLz ops ++ rest)).bytesLeft = 0 ∧
    ((decompressLZRLE libc (hd ++ junk ++ encodeLz ops ++ rest)).out.length : Int)
      = ((hdrLength hd - hdrSkip hd : Nat) : Int) ∧
    (decompressLZRLE libc (hd ++ junk ++ encodeLz ops ++ rest)).ret
      = ((hdrLength hd - hdrSkip hd : Nat) : Int) := by
  have hin : hd ++ junk ++ encodeLz ops ++ rest = (hd ++ junk) ++ (encodeLz ops ++ rest) := by
    simp [List.append_assoc]
  have hinit := lzrleInit_block hd junk (encodeLz ops ++ rest) hhd (by omega) hlt hjunk
  rw [← hin] at hinit
  have hit : ∀ k, k ≤ ops.length →
      ((lzrleBody libc (hd ++ junk ++ encodeLz ops ++ rest))^[k]
          (lzrleInit (hd ++ junk ++ encodeLz ops ++ rest))).bytesLeft
        = ((hdrLength hd - hdrSkip hd : Nat) : Int) - countLz (ops.take k) ∧
      ((lzrleBody libc (hd ++ junk ++ encodeLz ops ++ rest))^[k]
          (lzrleInit (hd ++ junk ++ encodeLz ops ++ rest))).out.length
        = countLz (ops.take k) := by
    intro k hk
    have h := lzrleBody_iterate_shaped libc rest ops (hd ++ junk)
      { inPos := (hd ++ junk).length
        bytesLeft := ((hdrLength hd - hdrSkip hd : Nat) : Int)
        out := [] } k hsh hk rfl (by simp only; omega) (by simp only; omega)
    rw [← hin, ← hinit] at h
    exact ⟨h.2.1.trans (by rw [hinit]), h.2.2.trans (by rw [hinit]; simp)⟩
  obtain ⟨n, hn⟩ : ∃ n, ops.length = n + 1 := by
    cases ops with
    | nil => exact absurd rfl hne
    | cons o os => exact ⟨os.length, rfl⟩
  have hfin : lzrleFinal libc (hd ++ junk ++ encodeLz ops ++ rest)
      = (lzrleBody libc (hd ++ junk ++ encodeLz ops ++ rest))^[ops.length]
          (lzrleInit (hd ++ junk ++ encodeLz ops ++ rest)) := by
    unfold lzrleFinal
    rw [hn]
    apply doWhile_eq_iterate
    · have h1 := (hit 1 (by omega)).1
      rw [Function.iterate_one] at h1
      rw [h1]
      have hc : n + countLz (ops.take 1) ≤ countLz ops := by
        cases ops with
        | nil => exact absurd rfl hne
        | cons o os =>
          have := length_le_countLz_shaped os (fun x hx => hsh x (by simp [hx]))
          simp only [List.length_cons] at hn
          simp only [List.take_succ_cons, List.take_zero, countLz]; omega
      omega
    · intro j hj1 hj2
      rw [(hit j (by omega)).1]
      have := countLz_take_lt_shaped ops j hsh (by omega)
      omega
    · rw [← hn, (hit ops.length (Nat.le_refl _)).1]
      simp only [List.take_length]
      omega
  have hlast := hit ops.length (Nat.le_refl _)
  simp only [List.take_length] at hlast
  refine ⟨?_, hfin, ?_, ?_, ?_⟩
  · intro k hk
    obtain ⟨hb, hl⟩ := hit k hk
    refine ⟨by rw [hb, hl]; omega, ?_⟩
    intro _ hk2
    rw [hb]
    have := countLz_take_lt_shaped ops k hsh hk2
    omega
  · rw [hfin, hlast.1]; omega
  · show (((lzrleFinal libc (hd ++ junk ++ encodeLz ops ++ rest)).out.length : Nat) : Int) = _
    rw [hfin, hlast.2]; omega
  · show lengthMinusSkip (hd ++ junk ++ encodeLz ops ++ rest) = _
    rw [List.append_assoc, List.append_assoc, lengthMinusSkip_append hd _ hhd,
      lengthMinusSkip_eq hd (by omega) hlt]

theorem countLz_replicate (n : Nat) (op : LzOp) :
    countLz (List.replicate n op) = n * op.count := by
  induction n with
  | zero => simp [countLz]
  | succ n ih => simp [List.replicate_succ, countLz, ih, Nat.succ_mul, Nat.add_comm]

theorem wellFormedLz_replicate_repeatRun (e n : Nat) (op v : Byte)
    (h : (LzOp.repeatRun op v).WellFormed 0) :
    WellFormedLz e (List.replicate n (.repeatRun op v)) := by
  induction n generalizing e with
  | zero => trivial
  | succ n ih => exact ⟨h, ih _⟩

theorem wellFormedLz_cons (e : Nat) (op : LzOp) (ops : List LzOp) :
    WellFormedLz e (op :: ops) ↔ op.WellFormed e ∧ WellFormedLz (e + op.count) ops :=
  Iff.rfl

/-! ## The two long streams -/

theorem longRleOps_count : countRle longRleOps = 2147483651 := by
  unfold longRleOps
  rw [countRle, countRle, countRle_replicate]
  decide

theorem longRleOps_wellFormed : ∀ op ∈ longRleOps, op.WellFormed := by
  intro op hop
  rcases List.mem_cons.1 hop with h | hop
  · subst h; decide
  · rcases List.mem_cons.1 hop with h | hop
    · subst h; decide
    · rw [List.eq_of_mem_replicate hop]; decide

theorem longLzOps_count : countLz longLzOps = 2147483713 := by
  unfold longLzOps
  rw [countLz, countLz, countLz_replicate]
  decide

theorem longLzOps_wellFormed : WellFormedLz 0 longLzOps := by
  unfold longLzOps
  rw [wellFormedLz_cons, wellFormedLz_cons]
  exact ⟨by decide, by decide, wellFormedLz_replicate_repeatRun _ _ _ _ (by decide)⟩

/-! ## The magic test -/

/-- On an archive of at least four bytes, `strncmp(hdr.magic, "BITP", 4)` is
non-zero exactly when the first four bytes are not `B`, `I`, `T`, `P`. -/
theorem strncmp_magic (file : List Byte) (h : 4 ≤ file.length) :
    strncmp file bitpLiteral 0 4 = true ↔ file.take 4 ≠ [0x42, 0x49, 0x54, 0x50] := by
  match file, h with
  | a :: b :: c :: d :: rest, _ =>
    by_cases ha : a = 0x42 <;> by_cases hb : b = 0x49 <;> by_cases hc : c = 0x54 <;>
      by_cases hd : d = 0x50 <;> simp [strncmp, rd, bitpLiteral, ha, hb, hc, hd]

/-- The extraction loop never ends with the bad-magic error. -/
theorem extractLoop_exit_ne_badMagic (libc : Libc) (file : List Byte) (es : List BitEntry)
    (m : List Byte) : (extractLoop libc file es).exit ≠ .badMagic m := by
  induction es with
  | nil => simp [extractLoop]
  | cons e es ih =>
    unfold extractLoop
    split
    · simp
    · simpa using ih

/-! ## Shifting the input -/

theorem rd_drop (mem : List Byte) (n i : Nat) : rd (mem.drop n) i = rd mem (n + i) := by
  simp [rd, List.getElem?_drop]

theorem memcpyFrom_shift (a b : List Byte) (delta : Nat) (h : SameFrom10 a b delta)
    (p n : Nat) (hp : 10 ≤ p) : memcpyFrom a (p + delta) n = memcpyFrom b p n := by
  induction n generalizing p with
  | zero => rfl
  | succ n ih =>
    rw [memcpyFrom, memcpyFrom, h p hp]
    have := ih (p + 1) (by omega)
    rw [show p + 1 + delta = p + delta + 1 by omega] at this
    rw [this]

theorem rleBody_shift (a b : List Byte) (delta : Nat) (h : SameFrom10 a b delta)
    (s1 s2 : LoopState) (hs : Shifted delta s1 s2) :
    Shifted delta (rleBody a s1) (rleBody b s2) := by
  obtain ⟨h1, h2, h3, h4⟩ := hs
  have e0 : rd a s1.inPos = rd b s2.inPos := by rw [h1]; exact h _ h2
  have e1 : rd a (s1.inPos + 1) = rd b (s2.inPos + 1) := by
    rw [h1, show s2.inPos + delta + 1 = (s2.inPos + 1) + delta by omega]; exact h _ (by omega)
  have ec : ∀ n, memcpyFrom a (s1.inPos + 1) n = memcpyFrom b (s2.inPos + 1) n := by
    intro n
    rw [h1, show s2.inPos + delta + 1 = (s2.inPos + 1) + delta by omega]
    exact memcpyFrom_shift a b delta h _ n (by omega)
  unfold rleBody Shifted
  simp only [e0, e1, ec, h3, h4]
  split
  · exact ⟨by simp only; omega, by simp only; omega, rfl, rfl⟩
  · exact ⟨by simp only; omega, by simp only; omega, rfl, rfl⟩

theorem lzrleBody_shift (libc : Libc) (a b : List Byte) (delta : Nat)
    (h : SameFrom10 a b delta) (s1 s2 : LoopState) (hs : Shifted delta s1 s2) :
    Shifted delta (lzrleBody libc a s1) (lzrleBody libc b s2) := by
  obtain ⟨h1, h2, h3, h4⟩ := hs
  have e0 : rd a s1.inPos = rd b s2.inPos := by rw [h1]; exact h _ h2
  have e1 : rd a (s1.inPos + 1) = rd b (s2.inPos + 1) := by
    rw [h1, show s2.inPos + delta + 1 = (s2.inPos + 1) + delta by omega]; exact h _ (by omega)
  have e2 : rd a (s1.inPos + 1 + 1) = rd b (s2.inPos + 1 + 1) := by
    rw [h1, show s2.inPos + delta + 1 + 1 = (s2.inPos + 1 + 1) + delta by omega]
    exact h _ (by omega)
  have ed : rd16 a (s1.inPos + 1) = rd16 b (s2.inPos + 1) := by
    simp only [rd16, e1, e2]
  have ec : ∀ n, memcpyFrom a (s1.inPos + 1) n = memcpyFrom b (s2.inPos + 1) n := by
    intro n
    rw [h1, show s2.inPos + delta + 1 = (s2.inPos + 1) + delta by omega]
    exact memcpyFrom_shift a b delta h _ n (by omega)
  unfold lzrleBody Shifted
  simp only [e0, e1, ed, ec, h3, h4]
  split
  · split
    · exact ⟨by simp only; omega, by simp only; omega, rfl, rfl⟩
    · exact ⟨by simp only; omega, by simp only; omega, rfl, rfl⟩
  · exact ⟨by simp only; omega, by simp only; omega, rfl, rfl⟩

/-- Loops whose bodies keep two states shifted end in shifted states. -/
theorem whileBytesLeft_shift (b1 b2 : LoopState → LoopState) (delta : Nat)
    (hb : ∀ s1 s2, Shifted delta s1 s2 → Shifted delta (b1 s1) (b2 s2))
    (fuel : Nat) (s1 s2 : LoopState) (hs : Shifted delta s1 s2) :
    Shifted delta (whileBytesLeft b1 fuel s1) (whileBytesLeft b2 fuel s2) := by
  induction fuel generalizing s1 s2 with
  | zero => exact hs
  | succ fuel ih =>
    rw [whileBytesLeft, whileBytesLeft, hs.2.2.1]
    split
    · exact ih _ _ (hb _ _ hs)
    · exact hs

theorem doWhile_shift (b1 b2 : LoopState → LoopState) (delta : Nat)
    (hb : ∀ s1 s2, Shifted delta s1 s2 → Shifted delta (b1 s1) (b2 s2))
    (s1 s2 : LoopState) (hs : Shifted delta s1 s2) :
    Shifted delta (doWhile b1 s1) (doWhile b2 s2) := by
  unfold doWhile
  have h1 := hb _ _ hs
  rw [h1.2.2.1]
  exact whileBytesLeft_shift b1 b2 delta hb _ _ _ h1

/-- A block with `skip` and the block with header `(length - skip, 0)` whose
payload lost its first `skip` bytes hold the same bytes from the cursor on. -/
theorem sameFrom10_drop (hd1 hd2 payload : List Byte) (n : Nat) (h1 : hd1.length = 10)
    (h2 : hd2.length = 10) : SameFrom10 (hd1 ++ payload) (hd2 ++ payload.drop n) n := by
  intro j hj
  obtain ⟨k, rfl⟩ : ∃ k, j = 10 + k := ⟨j - 10, by omega⟩
  have e1 := rd_append_right hd1 payload (k + n)
  have e2 := rd_append_right hd2 (payload.drop n) k
  rw [h1] at e1
  rw [h2] at e2
  rw [show 10 + k + n = 10 + (k + n) by omega, e1, e2, rd_drop, Nat.add_comm]

/-! ## The number of passes -/

/-- With a body that stores at least one byte per pass, the loop
`while (bytesLeft > 0)` makes a number `n` of passes that is at most
`bytesLeft` and is left because the test fails. -/
theorem whileBytesLeft_passes (body : LoopState → LoopState) (hb : Decrements body)
    (fuel : Nat) (s : LoopState) (hfuel : s.bytesLeft ≤ fuel)
    (hr : s.bytesLeft < 2147483648) :
    ∃ n : Nat, (n : Int) ≤ max 0 s.bytesLeft ∧ whileBytesLeft body fuel s = body^[n] s ∧
      (∀ j, j < n → 0 < (body^[j] s).bytesLeft) ∧ (body^[n] s).bytesLeft ≤ 0 := by
  induction fuel generalizing s with
  | zero =>
    refine ⟨0, by omega, rfl, fun j hj => absurd hj (by omega), ?_⟩
    simpa using hfuel
  | succ fuel ih =>
    by_cases hpos : 0 < s.bytesLeft
    · obtain ⟨c, hc1, hc2, hc, _⟩ := hb s
      have hx : (body s).bytesLeft = s.bytesLeft - c := by
        rw [hc]; unfold toI32; omega
      obtain ⟨n, hn, he, hrun, hstop⟩ := ih (body s) (by rw [hx]; push_cast at hfuel; omega)
        (by omega)
      refine ⟨n + 1, by push_cast; omega, ?_, ?_, ?_⟩
      · rw [whileBytesLeft, if_pos hpos, he, Function.iterate_succ_apply]
      · intro j hj
        cases j with
        | zero => simpa using hpos
        | succ j => rw [Function.iterate_succ_apply]; exact hrun j (by omega)
      · rw [Function.iterate_succ_apply]; exact hstop
    · refine ⟨0, by omega, ?_, fun j hj => absurd hj (by omega), ?_⟩
      · rw [whileBytesLeft, if_neg hpos]; rfl
      · simpa using hpos

/-- The loop `do ... while (bytesLeft > 0)` makes `n ≥ 1` passes, with the test
true after each pass but the last, and `n` is at most 1 plus the value of
`bytesLeft` after the first pass when that is positive. -/
theorem doWhile_passes (body : LoopState → LoopState) (hb : Decrements body)
    (s : LoopState) :
    ∃ n : Nat, 1 ≤ n ∧ (n : Int) ≤ 1 + max 0 (body s).bytesLeft ∧ doWhile body s = body^[n] s ∧
      (∀ j, 1 ≤ j → j < n → 0 < (body^[j] s).bytesLeft) ∧ (body^[n] s).bytesLeft ≤ 0 := by
  obtain ⟨c, _, _, hc, _⟩ := hb s
  obtain ⟨n, hn, he, hrun, hstop⟩ := whileBytesLeft_passes body hb (body s).bytesLeft.toNat
    (body s) (by omega) (by rw [hc]; unfold toI32; omega)
  refine ⟨n + 1, by omega, by push_cast; omega, ?_, ?_, ?_⟩
  · unfold doWhile
    rw [he, Function.iterate_succ_apply]
  · intro j hj1 hj2
    obtain ⟨k, rfl⟩ : ∃ k, j = k + 1 := ⟨j - 1, by omega⟩
    rw [Function.iterate_succ_apply]
    exact hrun k (by omega)
  · rw [Function.iterate_succ_apply]; exact hstop

/-- A pass that starts with a positive counter lowers it exactly by the number
of bytes it stores, which is at least 1: no wrap-around occurs. -/
theorem decrements_exact (body : LoopState → LoopState) (hb : Decrements body)
    (s : LoopState) (h0 : 0 < s.bytesLeft) (h1 : s.bytesLeft < 2147483648) :
    s.out.length < (body s).out.length ∧
    (body s).bytesLeft = s.bytesLeft - (((body s).out.length - s.out.length : Nat) : Int) ∧
    (body s).bytesLeft < s.bytesLeft := by
  obtain ⟨c, hc1, hc2, hc, hl⟩ := hb s
  have hx : (body s).bytesLeft = s.bytesLeft - c := by
    rw [hc]; unfold toI32; omega
  refine ⟨by omega, ?_, by omega⟩
  rw [hx, hl]
  have : s.out.length + c - s.out.length = c := by omega
  rw [this]

/-! ## Types 1 and 2 on raw-runs -/

/-- On an opcode below `0x80` the two loop bodies do the same. -/
theorem rleBody_eq_lzrleBody (libc : Libc) (inp : List Byte) (s : LoopState)
    (h : (rd inp s.inPos).val < 0x80) : rleBody inp s = lzrleBody libc inp s := by
  have hn : ¬ (0x80 ≤ (rd inp s.inPos).val) := by omega
  have h8 : ¬ ((rd inp s.inPos).val &&& 0x80 ≠ 0) := by
    intro hx
    have := (byte_bits (rd inp s.inPos)).1.1 hx
    omega
  simp only [rleBody, lzrleBody, if_neg hn, if_neg h8]

/-- Two bodies that agree on every state met while the test holds give the same
loop. -/
theorem whileBytesLeft_agree (b1 b2 : LoopState → LoopState) (fuel : Nat) (s : LoopState)
    (h : ∀ j, (∀ i, i ≤ j → 0 < (b1^[i] s).bytesLeft) → b1 (b1^[j] s) = b2 (b1^[j] s)) :
    whileBytesLeft b1 fuel s = whileBytesLeft b2 fuel s := by
  induction fuel generalizing s with
  | zero => rfl
  | succ fuel ih =>
    rw [whileBytesLeft, whileBytesLeft]
    split
    · rename_i hpos
      have h0 : b1 s = b2 s := h 0 (fun i hi => by
        have : i = 0 := by omega
        subst this; simpa using hpos)
      rw [← h0]
      apply ih
      intro j hj
      have := h (j + 1) (fun i hi => by
        cases i with
        | zero => simpa using hpos
        | succ i => rw [Function.iterate_succ_apply]; exact hj i (by omega))
      rwa [Function.iterate_succ_apply] at this
    · rfl

theorem doWhile_agree (b1 b2 : LoopState → LoopState) (s : LoopState)
    (h : ∀ j, (∀ i, 1 ≤ i → i ≤ j → 0 < (b1^[i] s).bytesLeft) →
      b1 (b1^[j] s) = b2 (b1^[j] s)) :
    doWhile b1 s = doWhile b2 s := by
  have h0 : b1 s = b2 s := h 0 (fun i h1 h2 => absurd h1 (by omega))
  unfold doWhile
  rw [← h0]
  apply whileBytesLeft_agree
  intro j hj
  have := h (j + 1) (fun i h1 h2 => by
    obtain ⟨k, rfl⟩ : ∃ k, i = k + 1 := ⟨i - 1, by omega⟩
    rw [Function.iterate_succ_apply]
    exact hj k (by omega))
  rwa [Function.iterate_succ_apply] at this

theorem rd_lt_of_forall (mem : List Byte) (bound : Nat) (hb : 0 < bound)
    (h : ∀ b ∈ mem, b.val < bound) (i : Nat) : (rd mem i).val < bound := by
  unfold rd
  by_cases hi : i < mem.length
  · rw [List.getD_eq_getElem _ _ hi]
    exact h _ (List.getElem_mem hi)
  · rw [List.getD_eq_default _ _ (by omega)]
    exact hb

/-! ## Skip and the output of type 0 -/

theorem memcpyFrom_drop (src : List Byte) (off n k : Nat) :
    (memcpyFrom src off n).drop k = memcpyFrom src (off + k) (n - k) := by
  induction n generalizing off k with
  | zero => simp [memcpyFrom]
  | succ n ih =>
    cases k with
    | zero => simp
    | succ k =>
      rw [memcpyFrom, List.drop_succ_cons, ih (off + 1) k]
      rw [show off + 1 + k = off + (k + 1) by omega, show n + 1 - (k + 1) = n - k by omega]

theorem sameFrom10_payload (hd1 hd2 payload : List Byte) (h1 : hd1.length = 10)
    (h2 : hd2.length = 10) : SameFrom10 (hd1 ++ payload) (hd2 ++ payload) 0 := by
  have h := sameFrom10_drop hd1 hd2 payload 0 h1 h2
  simpa using h

/-! ## The extraction loop -/

/-- What the extraction loop leaves behind: the files of the entries before the
first unsupported one, then an empty file for that entry, its output file
having been opened before its block was examined; the loop ends with the error
exactly when there is such an entry. -/
theorem extractLoop_artifacts (libc : Libc) (file : List Byte) (es : List BitEntry) :
    artifacts (extractLoop libc file es).events
      = (es.takeWhile (supported file)).map (extracted libc file)
        ++ ((es.dropWhile (supported file)).head?.map (fun e => (e.id, []))).toList ∧
    (extractLoop libc file es).exit
      = (match (es.dropWhile (supported file)).head? with
        | none => Exit.done
        | some e => Exit.unsupported (rd (readBlock file e.offset e.length) 0).val) := by
  induction es with
  | nil => simp [extractLoop, artifacts]
  | cons e es ih =>
    by_cases h : 2 < (rd (readBlock file e.offset e.length) 0).val
    · have hs : supported file e = false := by simp [supported]; omega
      have hd : dispatch libc (readBlock file e.offset e.length)
          = .error (rd (readBlock file e.offset e.length) 0).val := by
        simp [dispatch, h]
      simp [extractLoop, hd, hs, artifacts, writtenUntilClose]
    · have hs : supported file e = true := by simp [supported]; omega
      have hd : dispatch libc (readBlock file e.offset e.length)
          = .ok ((decompressionFuncs libc).getD (rd (readBlock file e.offset e.length) 0).val
              decompressCopy (readBlock file e.offset e.length)) := by
        have h3 : (rd (readBlock file e.offset e.length) 0).val = 0 ∨
            (rd (readBlock file e.offset e.length) 0).val = 1 ∨
            (rd (readBlock file e.offset e.length) 0).val = 2 := by omega
        rcases h3 with h0 | h0 | h0 <;> simp [dispatch, h0, decompressionFuncs]
      simp [extractLoop, hd, hs, artifacts, writtenUntilClose, extracted, ih.1, ih.2]

/-- The copy made by `decompressCopy`, with the size it requests. -/
theorem decompressCopy_out (inp : List Byte) :
    (decompressCopy inp).out = memcpyFrom inp (hdrSkip inp + 10) (copyRequest inp) := by
  simp only [decompressCopy, copyRequest, sizeofCmpHeader]

/-! ## Where the loop is left, and the single passes -/

/-- C1: for a type-0 block with `skip ≤ length`, `length - skip < 2^31` and at
least `length` bytes after the 10-byte header, `decompressCopy` returns
`length - skip` and stores exactly the block bytes at offsets
`[10 + skip, 10 + skip + (length - skip))`. -/
theorem decompressCopy_slice (blk : List Byte)
    (hskip : hdrSkip blk ≤ hdrLength blk)
    (hlt : hdrLength blk - hdrSkip blk < 2147483648)
    (hlen : 10 + hdrLength blk ≤ blk.length) :
    (decompressCopy blk).ret = ((hdrLength blk - hdrSkip blk : Nat) : Int) ∧
    (decompressCopy blk).out
      = (blk.drop (10 + hdrSkip blk)).take (hdrLength blk - hdrSkip blk) := by
  have hl := lengthMinusSkip_eq blk hskip hlt
  have hsz : toSizeT (lengthMinusSkip blk) = hdrLength blk - hdrSkip blk := by
    rw [hl]; unfold toSizeT; omega
  refine ⟨hl, ?_⟩
  simp only [decompressCopy, hsz, sizeofCmpHeader]
  rw [memcpyFrom_eq_slice _ _ _ (by omega), Nat.add_comm]

/-- Scenario A: `length = 10`, `skip = 2`, ten payload bytes `0x30 .. 0x39`:
the eight payload bytes `[2, 10)` come out. -/
theorem decompressCopy_slice_witness :
    (decompressCopy [0, 0, 0, 0, 10, 0, 0, 0, 2, 0,
        0x30, 0x31, 0x32, 0x33, 0x34, 0x35, 0x36, 0x37, 0x38, 0x39]).ret = 8 ∧
    (decompressCopy [0, 0, 0, 0, 10, 0, 0, 0, 2, 0,
        0x30, 0x31, 0x32, 0x33, 0x34, 0x35, 0x36, 0x37, 0x38, 0x39]).out
      = [0x32, 0x33, 0x34, 0x35, 0x36, 0x37, 0x38, 0x39] :=
  decompressCopy_slice
    [0, 0, 0, 0, 10, 0, 0, 0, 2, 0, 0x30, 0x31, 0x32, 0x33, 0x34, 0x35, 0x36, 0x37, 0x38, 0x39]
    (by decide) (by decide) (by decide)

/-- C2 (amended): a type-1 block made of a 10-byte header, `skip` arbitrary
bytes and the encoding of a non-empty sequence of well-formed opcodes whose
counts sum to `length - skip`, with `length - skip < 2^31`, decodes to the
concatenation, in order, of `nr - 0x7D` copies of the value byte for each
repeat-run and of the `nr + 1` literals for each raw-run; the value returned is
`length - skip`. -/
theorem decompressRLE_expand (hd junk rest : List Byte) (ops : List RleOp)
    (hhd : hd.length = 10) (hjunk : junk.length = hdrSkip hd) (hne : ops ≠ [])
    (hwf : ∀ op ∈ ops, op.WellFormed) (hsum : countRle ops + hdrSkip hd = hdrLength hd)
    (hlt : hdrLength hd - hdrSkip hd < 2147483648) :
    decompressRLE (hd ++ junk ++ encodeRle ops ++ rest)
      = { ret := ((hdrLength hd - hdrSkip hd : Nat) : Int), out := expandRle ops } :=
  decompressRLE_block hd junk rest ops hhd hjunk hne hwf hsum hlt

/-- Scenario B: the stream `02 41 42 43 83 58` with `length = 9`, `skip = 0`
decodes to `"ABC"` followed by six bytes `0x58`. -/
theorem decompressRLE_expand_witness :
    decompressRLE [1, 0, 0, 0, 9, 0, 0, 0, 0, 0, 0x02, 0x41, 0x42, 0x43, 0x83, 0x58]
      = { ret := 9, out := [0x41, 0x42, 0x43, 0x58, 0x58, 0x58, 0x58, 0x58, 0x58] } :=
  decompressRLE_expand [1, 0, 0, 0, 9, 0, 0, 0, 0, 0] [] []
    [.rawRun 0x02 [0x41, 0x42, 0x43], .repeatRun 0x83 0x58]
    (by decide) (by decide) (by decide) (by decide) (by decide) (by decide)

/-- C2, as stated, fails when `length - skip ≥ 2^31`: with `length = 0x80000003`,
`skip = 0` and the well-formed stream `longRleOps` the counter `bytesLeft`
starts negative, the loop is left after the first opcode and one byte is
stored, while the opcodes stand for `0x80000003` bytes. -/
theorem decompressRLE_expand_fails_large :
    longHeader.length = 10 ∧ ([] : List Byte).length = hdrSkip longHeader ∧ longRleOps ≠ [] ∧
    (∀ op ∈ longRleOps, op.WellFormed) ∧
    countRle longRleOps + hdrSkip longHeader = hdrLength longHeader ∧
    decompressRLE (longHeader ++ [] ++ encodeRle longRleOps ++ [])
      = { ret := -2147483645, out := [0x41] } ∧
    (decompressRLE (longHeader ++ [] ++ encodeRle longRleOps ++ [])).out
      ≠ expandRle longRleOps := by
  have hdec : decompressRLE (longHeader ++ [] ++ encodeRle longRleOps ++ [])
      = { ret := -2147483645, out := [0x41] } := by decide
  refine ⟨by decide, by decide, by decide, longRleOps_wellFormed, ?_, hdec, ?_⟩
  · rw [longRleOps_count]; decide
  · intro h
    have hl := congrArg List.length h
    rw [hdec, expandRle_length longRleOps longRleOps_wellFormed, longRleOps_count] at hl
    exact absurd hl (by decide)

/-- C3 (amended): a type-2 block made of a 10-byte header, `skip` arbitrary
bytes and the encoding of a non-empty opcode sequence whose counts sum to
`length - skip`, with `length - skip < 2^31`, in which every back-reference has
`count ≤ distance ≤ bytes already emitted`, decodes to the reference expansion
(`op - 0xBD` copies of the value byte; the `op - 0x7C` output bytes starting
`distance` before the output position; the `op + 1` literals), whatever the
library's `memcpy` does on overlapping regions; the value returned is
`length - skip`, and the cursor ends behind the last opcode, each opcode
having taken 2, 3 or `op + 2` bytes of input. -/
theorem decompressLZRLE_expand (libc : Libc) (hd junk rest : List Byte) (ops : List LzOp)
    (hhd : hd.length = 10) (hjunk : junk.length = hdrSkip hd) (hne : ops ≠ [])
    (hwf : WellFormedLz 0 ops) (hsum : countLz ops + hdrSkip hd = hdrLength hd)
    (hlt : hdrLength hd - hdrSkip hd < 2147483648) :
    decompressLZRLE libc (hd ++ junk ++ encodeLz ops ++ rest)
      = { ret := ((hdrLength hd - hdrSkip hd : Nat) : Int), out := expandLz [] ops } ∧
    (lzrleFinal libc (hd ++ junk ++ encodeLz ops ++ rest)).inPos
      = 10 + hdrSkip hd + (encodeLz ops).length :=
  ⟨decompressLZRLE_block libc hd junk rest ops hhd hjunk hne hwf hsum hlt, by
    rw [(lzrleFinal_block libc hd junk rest ops hhd hjunk hne hwf hsum hlt).2]⟩

/-- A raw-run `"ABCD"`, a back-reference with `count = 4`, `distance = 4`, and a
repeat-run of three bytes `0x58`, behind one skipped byte: `"ABCDABCDXXX"`. -/
theorem decompressLZRLE_expand_witness :
    decompressLZRLE Libc.block
        [2, 0, 0, 0, 12, 0, 0, 0, 1, 0, 0x77,
          0x03, 0x41, 0x42, 0x43, 0x44, 0x80, 0x04, 0x00, 0xC0, 0x58]
      = { ret := 11,
          out := [0x41, 0x42, 0x43, 0x44, 0x41, 0x42, 0x43, 0x44, 0x58, 0x58, 0x58] } ∧
    (lzrleFinal Libc.block
        [2, 0, 0, 0, 12, 0, 0, 0, 1, 0, 0x77,
          0x03, 0x41, 0x42, 0x43, 0x44, 0x80, 0x04, 0x00, 0xC0, 0x58]).inPos = 21 :=
  decompressLZRLE_expand Libc.block [2, 0, 0, 0, 12, 0, 0, 0, 1, 0] [0x77] []
    [.rawRun 0x03 [0x41, 0x42, 0x43, 0x44], .backRef 0x80 0x04 0x00, .repeatRun 0xC0 0x58]
    (by decide) (by decide) (by decide) (by decide) (by decide) (by decide)

/-- C3, as stated, fails when `length - skip ≥ 2^31`: with `length = 0x80000041`,
`skip = 0` and the well-formed stream `longLzOps` (no back-reference at all)
the counter `bytesLeft` starts negative, the loop is left after the first
opcode and one byte is stored, while the reference expansion has `0x80000041`
bytes. -/
theorem decompressLZRLE_expand_fails_large :
    longLzHeader.length = 10 ∧ ([] : List Byte).length = hdrSkip longLzHeader ∧
    longLzOps ≠ [] ∧ WellFormedLz 0 longLzOps ∧
    countLz longLzOps + hdrSkip longLzHeader = hdrLength longLzHeader ∧
    decompressLZRLE Libc.forward (longLzHeader ++ [] ++ encodeLz longLzOps ++ [])
      = { ret := -2147483583, out := [0x41] } ∧
    (decompressLZRLE Libc.forward (longLzHeader ++ [] ++ encodeLz longLzOps ++ [])).out
      ≠ expandLz [] longLzOps := by
  have hdec : decompressLZRLE Libc.forward (longLzHeader ++ [] ++ encodeLz longLzOps ++ [])
      = { ret := -2147483583, out := [0x41] } := by decide
  refine ⟨by decide, by decide, by decide, longLzOps_wellFormed, ?_, hdec, ?_⟩
  · rw [longLzOps_count]; decide
  · intro h
    have hl := congrArg List.length h
    rw [hdec, expandLz_length [] longLzOps longLzOps_wellFormed, longLzOps_count] at hl
    exact absurd hl (by decide)

/-- C4, the code at scenario C and at the self-overlap case: a raw-run `"AB"`
followed by a back-reference with `count = 4`, `distance = 2`, and a raw-run
`0xAB` followed by a back-reference with `count = 5`, `distance = 1`. The call
`memcpy(outPtr, outPtr - distance, copy)` has overlapping operands; with a
library that copies byte by byte upwards the results are `"ABABAB"` and six
bytes `0xAB`, with a library that loads the source before storing they are
`"ABAB"` and `0xAB 0xAB` followed by bytes of the buffer never written. -/
theorem decompressLZRLE_overlap_depends_on_memcpy :
    decompressLZRLE Libc.forward
        [2, 0, 0, 0, 6, 0, 0, 0, 0, 0, 0x01, 0x41, 0x42, 0x80, 0x02, 0x00]
      = { ret := 6, out := [0x41, 0x42, 0x41, 0x42, 0x41, 0x42] } ∧
    decompressLZRLE Libc.block
        [2, 0, 0, 0, 6, 0, 0, 0, 0, 0, 0x01, 0x41, 0x42, 0x80, 0x02, 0x00]
      = { ret := 6, out := [0x41, 0x42, 0x41, 0x42, 0, 0] } ∧
    decompressLZRLE Libc.forward [2, 0, 0, 0, 6, 0, 0, 0, 0, 0, 0x00, 0xAB, 0x81, 0x01, 0x00]
      = { ret := 6, out := [0xAB, 0xAB, 0xAB, 0xAB, 0xAB, 0xAB] } ∧
    decompressLZRLE Libc.block [2, 0, 0, 0, 6, 0, 0, 0, 0, 0, 0x00, 0xAB, 0x81, 0x01, 0x00]
      = { ret := 6, out := [0xAB, 0xAB, 0, 0, 0, 0] } := by
  decide

/-- C5: on a raw block with first byte `t`, the dispatch fails with the
unsupported-format error, without any decoder result, when `t > 2`, and
otherwise yields what `decompressCopy` (`t = 0`), `decompressRLE` (`t = 1`) or
`decompressLZRLE` (`t = 2`) returns on the whole raw block; an entry whose
block has `t > 2` ends the extraction loop with that error and nothing is
written for it. -/
theorem dispatch_eq (libc : Libc) (file inB : List Byte) (e : BitEntry) (es : List BitEntry) :
    (dispatch libc inB =
      if 2 < (rd inB 0).val then .error (rd inB 0).val
      else if (rd inB 0).val = 0 then .ok (decompressCopy inB)
      else if (rd inB 0).val = 1 then .ok (decompressRLE inB)
      else .ok (decompressLZRLE libc inB)) ∧
    (extractLoop libc file (e :: es) =
      if 2 < (rd (readBlock file e.offset e.length) 0).val then
        { events := [.fopenOut e.id, .readBlock e.offset e.length]
          exit := .unsupported (rd (readBlock file e.offset e.length) 0).val }
      else
        { events := .fopenOut e.id :: .readBlock e.offset e.length
            :: .fwrite e.id (fwriteData
                ((decompressionFuncs libc).getD (rd (readBlock file e.offset e.length) 0).val
                  decompressCopy (readBlock file e.offset e.length)))
            :: .fclose e.id :: (extractLoop libc file es).events
          exit := (extractLoop libc file es).exit }) := by
  have hd : ∀ b : List Byte, dispatch libc b =
      if 2 < (rd b 0).val then .error (rd b 0).val
      else if (rd b 0).val = 0 then .ok (decompressCopy b)
      else if (rd b 0).val = 1 then .ok (decompressRLE b)
      else .ok (decompressLZRLE libc b) := by
    intro b
    unfold dispatch
    by_cases h : 2 < (rd b 0).val
    · simp [h]
    · have h3 : (rd b 0).val = 0 ∨ (rd b 0).val = 1 ∨ (rd b 0).val = 2 := by omega
      rcases h3 with h0 | h0 | h0 <;> simp [h0, decompressionFuncs]
  refine ⟨hd inB, ?_⟩
  rw [extractLoop, hd]
  by_cases h : 2 < (rd (readBlock file e.offset e.length) 0).val
  · simp [h]
  · have h3 : (rd (readBlock file e.offset e.length) 0).val = 0 ∨
        (rd (readBlock file e.offset e.length) 0).val = 1 ∨
        (rd (readBlock file e.offset e.length) 0).val = 2 := by omega
    rcases h3 with h0 | h0 | h0 <;> simp [h0, decompressionFuncs]

/-- C6: on an archive of at least ten bytes `main` ends with the bad-magic
error exactly when the first four bytes are not `B`, `I`, `T`, `P`; in that
case it has made no call at all: the entry table is not read and nothing is
extracted. -/
theorem main_badMagic_iff (libc : Libc) (file : List Byte) (h : 10 ≤ file.length) :
    ((main libc file).exit = .badMagic (file.take 4)
      ↔ file.take 4 ≠ [0x42, 0x49, 0x54, 0x50]) ∧
    (file.take 4 ≠ [0x42, 0x49, 0x54, 0x50] → (main libc file).events = []) ∧
    (file.take 4 = [0x42, 0x49, 0x54, 0x50] →
      ∀ m, (main libc file).exit ≠ .badMagic m) := by
  have hs := strncmp_magic file (by omega)
  have hm : memcpyFrom file 0 4 = file.take 4 := by
    rw [memcpyFrom_eq_slice _ _ _ (by omega)]; rfl
  by_cases hc : strncmp file bitpLiteral 0 4 = true
  · have hne := hs.1 hc
    simp [main, hc, hm, hne]
  · have heq : file.take 4 = [0x42, 0x49, 0x54, 0x50] := by
      by_contra hne
      exact hc (hs.2 hne)
    have hx := extractLoop_exit_ne_badMagic libc file (entryTable file)
    simp [main, hc, heq, hx]

/-- A magic of `"XXXX"`: the run ends with the bad-magic error and no call has
been made. -/
theorem main_badMagic_iff_witness :
    (main Libc.block [0x58, 0x58, 0x58, 0x58, 1, 0, 1, 0, 0, 0]).exit
      = .badMagic [0x58, 0x58, 0x58, 0x58] ∧
    (main Libc.block [0x58, 0x58, 0x58, 0x58, 1, 0, 1, 0, 0, 0]).events = [] :=
  ⟨(main_badMagic_iff Libc.block [0x58, 0x58, 0x58, 0x58, 1, 0, 1, 0, 0, 0] (by decide)).1.2
      (by decide),
   (main_badMagic_iff Libc.block [0x58, 0x58, 0x58, 0x58, 1, 0, 1, 0, 0, 0] (by decide)).2.1
      (by decide)⟩

/-- C7 (amended): for `decompressRLE` and `decompressLZRLE` on a well-formed
block (opcode counts summing to `length - skip ≥ 1`) with
`length - skip < 2^31`: at the start of every pass, and after the last one, the
bytes stored so far plus `bytesLeft` equal `length - skip`; the test
`bytesLeft > 0` holds between passes; the loop is left after one pass per
opcode with `bytesLeft = 0`; the number of bytes stored then equals
`length - skip`, which is also the value returned. For type 2 the
back-references may point anywhere (overlapping the bytes they store, or below
the start of the output) and the library is arbitrary. -/
theorem bytesLeft_invariant :
    (∀ (hd junk rest : List Byte) (ops : List RleOp),
      hd.length = 10 → junk.length = hdrSkip hd → ops ≠ [] → (∀ op ∈ ops, op.WellFormed) →
      countRle ops + hdrSkip hd = hdrLength hd → hdrLength hd - hdrSkip hd < 2147483648 →
      (∀ k, k ≤ ops.length →
        (((rleBody (hd ++ junk ++ encodeRle ops ++ rest))^[k]
            (rleInit (hd ++ junk ++ encodeRle ops ++ rest))).out.length : Int)
          + ((rleBody (hd ++ junk ++ encodeRle ops ++ rest))^[k]
              (rleInit (hd ++ junk ++ encodeRle ops ++ rest))).bytesLeft
          = ((hdrLength hd - hdrSkip hd : Nat) : Int) ∧
        (1 ≤ k → k < ops.length →
          0 < ((rleBody (hd ++ junk ++ encodeRle ops ++ rest))^[k]
              (rleInit (hd ++ junk ++ encodeRle ops ++ rest))).bytesLeft)) ∧
      rleFinal (hd ++ junk ++ encodeRle ops ++ rest)
        = (rleBody (hd ++ junk ++ encodeRle ops ++ rest))^[ops.length]
            (rleInit (hd ++ junk ++ encodeRle ops ++ rest)) ∧
      (rleFinal (hd ++ junk ++ encodeRle ops ++ rest)).bytesLeft = 0 ∧
      ((decompressRLE (hd ++ junk ++ encodeRle ops ++ rest)).out.length : Int)
        = ((hdrLength hd - hdrSkip hd : Nat) : Int) ∧
      (decompressRLE (hd ++ junk ++ encodeRle ops ++ rest)).ret
        = ((hdrLength hd - hdrSkip hd : Nat) : Int)) ∧
    (∀ (libc : Libc) (hd junk rest : List Byte) (ops : List LzOp),
      hd.length = 10 → junk.length = hdrSkip hd → ops ≠ [] → (∀ op ∈ ops, op.Shaped) →
      countLz ops + hdrSkip hd = hdrLength hd → hdrLength hd - hdrSkip hd < 2147483648 →
      (∀ k, k ≤ ops.length →
        (((lzrleBody libc (hd ++ junk ++ encodeLz ops ++ rest))^[k]
            (lzrleInit (hd ++ junk ++ encodeLz ops ++ rest))).out.length : Int)
          + ((lzrleBody libc (hd ++ junk ++ encodeLz ops ++ rest))^[k]
              (lzrleInit (hd ++ junk ++ encodeLz ops ++ rest))).bytesLeft
          = ((hdrLength hd - hdrSkip hd : Nat) : Int) ∧
        (1 ≤ k → k < ops.length →
          0 < ((lzrleBody libc (hd ++ junk ++ encodeLz ops ++ rest))^[k]
              (lzrleInit (hd ++ junk ++ encodeLz ops ++ rest))).bytesLeft)) ∧
      lzrleFinal libc (hd ++ junk ++ encodeLz ops ++ rest)
        = (lzrleBody libc (hd ++ junk ++ encodeLz ops ++ rest))^[ops.length]
            (lzrleInit (hd ++ junk ++ encodeLz ops ++ rest)) ∧
      (lzrleFinal libc (hd ++ junk ++ encodeLz ops ++ rest)).bytesLeft = 0 ∧
      ((decompressLZRLE libc (hd ++ junk ++ encodeLz ops ++ rest)).out.length : Int)
        = ((hdrLength hd - hdrSkip hd : Nat) : Int) ∧
      (decompressLZRLE libc (hd ++ junk ++ encodeLz ops ++ rest)).ret
        = ((hdrLength hd - hdrSkip hd : Nat) : Int)) :=
  ⟨fun hd junk rest ops h1 h2 h3 h4 h5 h6 =>
      rle_bytesLeft_invariant hd junk rest ops h1 h2 h3 h4 h5 h6,
   fun libc hd junk rest ops h1 h2 h3 h4 h5 h6 =>
      lzrle_bytesLeft_invariant libc hd junk rest ops h1 h2 h3 h4 h5 h6⟩

/-- The stream of scenario B (type 1) and the stream of scenario C (type 2, a
raw-run `"AB"` and a back-reference with `count = 4`, `distance = 2` that
overlaps what it stores): both loops are left with `bytesLeft = 0`, and the
values returned are the numbers of bytes stored, 9 and 6. -/
theorem bytesLeft_invariant_witness :
    ((rleFinal [1, 0, 0, 0, 9, 0, 0, 0, 0, 0, 0x02, 0x41, 0x42, 0x43, 0x83, 0x58]).bytesLeft = 0 ∧
      (decompressRLE [1, 0, 0, 0, 9, 0, 0, 0, 0, 0, 0x02, 0x41, 0x42, 0x43, 0x83, 0x58]).ret
        = 9) ∧
    ((lzrleFinal Libc.block
          [2, 0, 0, 0, 6, 0, 0, 0, 0, 0, 0x01, 0x41, 0x42, 0x80, 0x02, 0x00]).bytesLeft = 0 ∧
      ((decompressLZRLE Libc.block
          [2, 0, 0, 0, 6, 0, 0, 0, 0, 0, 0x01, 0x41, 0x42, 0x80, 0x02, 0x00]).out.length : Int)
        = 6 ∧
      (decompressLZRLE Libc.block
          [2, 0, 0, 0, 6, 0, 0, 0, 0, 0, 0x01, 0x41, 0x42, 0x80, 0x02, 0x00]).ret = 6) :=
  ⟨(fun h => ⟨h.2.2.1, h.2.2.2.2⟩)
      (bytesLeft_invariant.1 [1, 0, 0, 0, 9, 0, 0, 0, 0, 0] [] []
        [.rawRun 0x02 [0x41, 0x42, 0x43], .repeatRun 0x83 0x58]
        (by decide) (by decide) (by decide) (by decide) (by decide) (by decide)),
   (fun h => ⟨h.2.2.1, h.2.2.2.1, h.2.2.2.2⟩)
      (bytesLeft_invariant.2 Libc.block [2, 0, 0, 0, 6, 0, 0, 0, 0, 0] [] []
        [.rawRun 0x01 [0x41, 0x42], .backRef 0x80 0x02 0x00]
        (by decide) (by decide) (by decide) (by decide) (by decide) (by decide))⟩

/-- C7, as stated, fails when `length - skip ≥ 2^31`: on the well-formed type-1
block with `length = 0x80000003`, `skip = 0` and the stream `longRleOps`, the
counter starts at `-2147483645`, so before the first pass stored bytes plus
`bytesLeft` are not `length - skip`; the loop is left after one pass with
`bytesLeft = -2147483646`, one byte stored, and the value returned is negative. -/
theorem bytesLeft_invariant_fails_large :
    longHeader.length = 10 ∧ ([] : List Byte).length = hdrSkip longHeader ∧ longRleOps ≠ [] ∧
    (∀ op ∈ longRleOps, op.WellFormed) ∧
    countRle longRleOps + hdrSkip longHeader = hdrLength longHeader ∧
    1 ≤ hdrLength longHeader - hdrSkip longHeader ∧
    (rleInit (longHeader ++ [] ++ encodeRle longRleOps ++ [])).out.length = 0 ∧
    (rleInit (longHeader ++ [] ++ encodeRle longRleOps ++ [])).bytesLeft = -2147483645 ∧
    hdrLength longHeader - hdrSkip longHeader = 2147483651 ∧
    (rleFinal (longHeader ++ [] ++ encodeRle longRleOps ++ [])).bytesLeft = -2147483646 ∧
    (rleFinal (longHeader ++ [] ++ encodeRle longRleOps ++ [])).out.length = 1 ∧
    (decompressRLE (longHeader ++ [] ++ encodeRle longRleOps ++ [])).ret = -2147483645 := by
  refine ⟨by decide, by decide, by decide, longRleOps_wellFormed, ?_, by decide, by decide,
    by decide, by decide, by decide, by decide, by decide⟩
  rw [longRleOps_count]; decide

/-- C9 (amended): a back-reference whose distance exceeds the number of bytes
stored so far is not rejected: the pass stores `op - 0x7C` bytes, obtained from
the library's `memcpy` reading below the start of the output buffer, moves the
cursor by 3 and lowers `bytesLeft` by `op - 0x7C`, like any other
back-reference. -/
theorem lzrleBody_backRef_unchecked (libc : Libc) (blk : List Byte) (s : LoopState)
    (h80 : (rd blk s.inPos).val &&& 0x80 ≠ 0) (h40 : ¬ ((rd blk s.inPos).val &&& 0x40 ≠ 0))
    (hdist : s.out.length < rd16 blk (s.inPos + 1)) :
    lzrleBody libc blk s
      = { inPos := s.inPos + 3
          bytesLeft := toI32 (s.bytesLeft - (((rd blk s.inPos).val - 0x7C : Nat) : Int))
          out := s.out ++ memcpyFrom
            (libc.memcpyUndef s.out (rd16 blk (s.inPos + 1)) ((rd blk s.inPos).val - 0x7C)) 0
            ((rd blk s.inPos).val - 0x7C) } := by
  have hlt := (rd blk s.inPos).isLt
  have hge := (byte_bits (rd blk s.inPos)).1.1 h80
  have hc : toU32 (((rd blk s.inPos).val : Int) - 0x7c) = (rd blk s.inPos).val - 0x7C := by
    unfold toU32; omega
  have hn : ¬ ((rd blk s.inPos).val - 0x7C ≤ rd16 blk (s.inPos + 1) ∧
      rd16 blk (s.inPos + 1) ≤ s.out.length) := by omega
  simp only [lzrleBody, if_pos h80, if_neg h40, hc, subCopy_eq, memcpyBack, if_neg hn]

/-- A back-reference with `count = 4`, `distance = 1` as the very first opcode,
run with the library that copies byte by byte. -/
theorem lzrleBody_backRef_unchecked_witness :
    lzrleBody Libc.forward [2, 0, 0, 0, 4, 0, 0, 0, 0, 0, 0x80, 0x01, 0x00]
        { inPos := 10, bytesLeft := 4, out := [] }
      = { inPos := 13, bytesLeft := 0, out := [0, 0, 0, 0] } :=
  lzrleBody_backRef_unchecked Libc.forward [2, 0, 0, 0, 4, 0, 0, 0, 0, 0, 0x80, 0x01, 0x00]
    { inPos := 10, bytesLeft := 4, out := [] } (by decide) (by decide) (by decide)

/-- C9, as stated, fails: the type-2 block with `length = 4`, `skip = 0` and the
stream `80 01 00` (back-reference, `count = 4`, `distance = 1`, nothing stored
before it) is decoded to four bytes read from below the buffer and `4` is
returned, with either library. -/
theorem decompressLZRLE_backRef_before_start :
    decompressLZRLE Libc.forward [2, 0, 0, 0, 4, 0, 0, 0, 0, 0, 0x80, 0x01, 0x00]
      = { ret := 4, out := [0, 0, 0, 0] } ∧
    decompressLZRLE Libc.block [2, 0, 0, 0, 4, 0, 0, 0, 0, 0, 0x80, 0x01, 0x00]
      = { ret := 4, out := [0, 0, 0, 0] } := by
  decide

/-- C10 (amended): for a type-0 block whose header has `skip > length`,
`decompressCopy` makes no test and has no `CorruptData` result: the length it
computes is the negative number `length - skip`, the size it passes to `malloc`
and `memcpy` is that number as a `size_t`, `2^64 - (skip - length)`, which is
above `PTRDIFF_MAX`, and the copy it then starts cannot complete, so that
neither a length nor an output comes back. -/
theorem decompressCopy_unchecked (blk : List Byte) (h : hdrLength blk < hdrSkip blk) :
    lengthMinusSkip blk = (hdrLength blk : Int) - (hdrSkip blk : Int) ∧
    lengthMinusSkip blk < 0 ∧
    copyRequest blk = 18446744073709551616 - (hdrSkip blk - hdrLength blk) ∧
    ptrdiffMax < copyRequest blk ∧
    (decompressCopy blk).out
      = memcpyFrom blk (hdrSkip blk + 10)
          (18446744073709551616 - (hdrSkip blk - hdrLength blk)) ∧
    decompressCopyOnMachine blk = none := by
  have h1 := hdrSkip_lt blk
  have h2 := hdrLength_lt blk
  have hl : lengthMinusSkip blk = (hdrLength blk : Int) - (hdrSkip blk : Int) := by
    unfold lengthMinusSkip toU32 toI32; omega
  have hc : copyRequest blk = 18446744073709551616 - (hdrSkip blk - hdrLength blk) := by
    unfold copyRequest toSizeT; rw [hl]; omega
  have hp : ptrdiffMax < copyRequest blk := by
    rw [hc]; unfold ptrdiffMax; omega
  refine ⟨hl, by rw [hl]; omega, hc, hp, ?_, ?_⟩
  · rw [decompressCopy_out, hc]
  · unfold decompressCopyOnMachine
    rw [if_neg (by omega)]

/-- A header with `length = 1`, `skip = 2`: the length computed is `-1`, the
size requested is `2^64 - 1`, and nothing comes back. -/
theorem decompressCopy_unchecked_witness :
    lengthMinusSkip [0, 0, 0, 0, 1, 0, 0, 0, 2, 0, 0x30] < 0 ∧
    ptrdiffMax < copyRequest [0, 0, 0, 0, 1, 0, 0, 0, 2, 0, 0x30] ∧
    decompressCopyOnMachine [0, 0, 0, 0, 1, 0, 0, 0, 2, 0, 0x30] = none :=
  (fun h => ⟨h.2.1, h.2.2.2.1, h.2.2.2.2.2⟩)
    (decompressCopy_unchecked [0, 0, 0, 0, 1, 0, 0, 0, 2, 0, 0x30] (by decide))

/-- C10, as stated, fails: with `length = 1`, `skip = 2` no `CorruptData` ends
the call. The function computes the length `-1` and goes on to `malloc` and
`memcpy` with the size `2^64 - 1`; the call ends in that copy, which cannot
complete. -/
theorem decompressCopy_skip_gt_length :
    hdrLength [0, 0, 0, 0, 1, 0, 0, 0, 2, 0, 0x30] = 1 ∧
    hdrSkip [0, 0, 0, 0, 1, 0, 0, 0, 2, 0, 0x30] = 2 ∧
    lengthMinusSkip [0, 0, 0, 0, 1, 0, 0, 0, 2, 0, 0x30] = -1 ∧
    copyRequest [0, 0, 0, 0, 1, 0, 0, 0, 2, 0, 0x30] = 18446744073709551615 ∧
    (decompressCopy [0, 0, 0, 0, 1, 0, 0, 0, 2, 0, 0x30]).out.length
      = 18446744073709551615 ∧
    decompressCopyOnMachine [0, 0, 0, 0, 1, 0, 0, 0, 2, 0, 0x30] = none := by
  refine ⟨by decide, by decide, by decide, by decide, ?_, by decide⟩
  simp only [decompressCopy, memcpyFrom_length]
  decide

set_option maxRecDepth 100000 in
/-- The bounds of the type-1 counts are attained. -/
theorem rleBody_bounds_attained :
    (rleBody [0x80, 0x58] { inPos := 0, bytesLeft := 200, out := [] }).out.length = 3 ∧
    (rleBody [0xFF, 0x58] { inPos := 0, bytesLeft := 200, out := [] }).out.length = 130 ∧
    (rleBody [0x00, 0x58] { inPos := 0, bytesLeft := 200, out := [] }).out.length = 1 ∧
    (rleBody [0x7F, 0x58] { inPos := 0, bytesLeft := 200, out := [] }).out.length = 128 := by
  decide

/-- C14: in `decompressRLE`, an opcode `nr ≥ 0x80` stores `nr - 0x7D` copies of
the next byte, a number between 3 and 130, and moves the cursor by 2; an opcode
`nr < 0x80` stores the `nr + 1` bytes that follow, a number between 1 and 128,
and moves the cursor by that number plus 1. The four bounds are attained at
`nr = 0x80`, `0xFF`, `0x00` and `0x7F`. -/
theorem rleBody_count_ranges (inp : List Byte) (s : LoopState) :
    (0x80 ≤ (rd inp s.inPos).val →
      3 ≤ (rd inp s.inPos).val - 0x7D ∧ (rd inp s.inPos).val - 0x7D ≤ 130 ∧
      rleBody inp s
        = { inPos := s.inPos + 2
            bytesLeft := subCopy s.bytesLeft ((rd inp s.inPos).val - 0x7D)
            out := s.out
              ++ List.replicate ((rd inp s.inPos).val - 0x7D) (rd inp (s.inPos + 1)) }) ∧
    ((rd inp s.inPos).val < 0x80 →
      1 ≤ (rd inp s.inPos).val + 1 ∧ (rd inp s.inPos).val + 1 ≤ 128 ∧
      rleBody inp s
        = { inPos := s.inPos + (((rd inp s.inPos).val + 1) + 1)
            bytesLeft := subCopy s.bytesLeft ((rd inp s.inPos).val + 1)
            out := s.out ++ memcpyFrom inp (s.inPos + 1) ((rd inp s.inPos).val + 1) }) ∧
    ((rleBody [0x80, 0x58] { inPos := 0, bytesLeft := 200, out := [] }).out.length = 3 ∧
      (rleBody [0xFF, 0x58] { inPos := 0, bytesLeft := 200, out := [] }).out.length = 130 ∧
      (rleBody [0x00, 0x58] { inPos := 0, bytesLeft := 200, out := [] }).out.length = 1 ∧
      (rleBody [0x7F, 0x58] { inPos := 0, bytesLeft := 200, out := [] }).out.length = 128) := by
  have hlt := (rd inp s.inPos).isLt
  refine ⟨?_, ?_, rleBody_bounds_attained⟩
  · intro h
    have hc : toU32 (((rd inp s.inPos).val : Int) - 0x7d) = (rd inp s.inPos).val - 0x7D := by
      unfold toU32; omega
    refine ⟨by omega, by omega, ?_⟩
    simp only [rleBody, if_pos h, hc]
  · intro h
    have hn : ¬ (0x80 ≤ (rd inp s.inPos).val) := by omega
    have hc : toU32 (((rd inp s.inPos).val : Int) + 1) = (rd inp s.inPos).val + 1 := by
      unfold toU32; omega
    refine ⟨by omega, by omega, ?_⟩
    simp only [rleBody, if_neg hn, hc]

/-- The opcode `0x83` followed by `0x58`: six copies, cursor moved by 2. -/
theorem rleBody_count_ranges_witness :
    rleBody [0x83, 0x58] { inPos := 0, bytesLeft := 6, out := [] }
      = { inPos := 2, bytesLeft := 0, out := [0x58, 0x58, 0x58, 0x58, 0x58, 0x58] } ∧
    rleBody [0x02, 0x41, 0x42, 0x43] { inPos := 0, bytesLeft := 3, out := [] }
      = { inPos := 4, bytesLeft := 0, out := [0x41, 0x42, 0x43] } :=
  ⟨((rleBody_count_ranges [0x83, 0x58] { inPos := 0, bytesLeft := 6, out := [] }).1
      (by decide)).2.2,
   ((rleBody_count_ranges [0x02, 0x41, 0x42, 0x43]
      { inPos := 0, bytesLeft := 3, out := [] }).2.1 (by decide)).2.2⟩

/-- C17: when `length = skip` the loops of `decompressRLE` and
`decompressLZRLE` make exactly one pass: the state on leaving is the state
after one run of the body, at least one byte has been stored although the
length declared is zero, and the value returned is `0`. -/
theorem doWhile_one_pass_at_zero (libc : Libc) (blk : List Byte)
    (h : hdrLength blk = hdrSkip blk) :
    (rleFinal blk = rleBody blk (rleInit blk) ∧ (rleInit blk).out = [] ∧
      1 ≤ (decompressRLE blk).out.length ∧ (decompressRLE blk).ret = 0) ∧
    (lzrleFinal libc blk = lzrleBody libc blk (lzrleInit blk) ∧ (lzrleInit blk).out = [] ∧
      1 ≤ (decompressLZRLE libc blk).out.length ∧ (decompressLZRLE libc blk).ret = 0) := by
  have h0 : lengthMinusSkip blk = 0 := by
    unfold lengthMinusSkip toU32 toI32; omega
  have one : ∀ (body : LoopState → LoopState) (s : LoopState), Decrements body →
      s.bytesLeft = 0 → s.out = [] →
      doWhile body s = body s ∧ 1 ≤ (doWhile body s).out.length := by
    intro body s hb hs ho
    obtain ⟨c, hc1, hc2, hc, hl⟩ := hb s
    have hneg : (body s).bytesLeft.toNat = 0 := by
      rw [hc, hs]; unfold toI32; omega
    have he : doWhile body s = body s := by
      unfold doWhile; rw [hneg]; rfl
    refine ⟨he, ?_⟩
    rw [he, hl]; omega
  have hr := one (rleBody blk) (rleInit blk) (rleBody_decrements blk) h0 rfl
  have hz := one (lzrleBody libc blk) (lzrleInit blk) (lzrleBody_decrements libc blk) h0 rfl
  exact ⟨⟨hr.1, rfl, hr.2, h0⟩, ⟨hz.1, rfl, hz.2, h0⟩⟩

/-- A header with `length = skip = 0` followed by the type-1 stream `83 58` and
the type-2 stream `C0 58`: six and three bytes are stored, `0` is returned. -/
theorem doWhile_one_pass_at_zero_witness :
    decompressRLE [1, 0, 0, 0, 0, 0, 0, 0, 0, 0, 0x83, 0x58]
      = { ret := 0, out := [0x58, 0x58, 0x58, 0x58, 0x58, 0x58] } ∧
    (1 ≤ (decompressLZRLE Libc.block [2, 0, 0, 0, 0, 0, 0, 0, 0, 0, 0xC0, 0x58]).out.length ∧
      (decompressLZRLE Libc.block [2, 0, 0, 0, 0, 0, 0, 0, 0, 0, 0xC0, 0x58]).ret = 0) :=
  ⟨by decide,
   (doWhile_one_pass_at_zero Libc.block [2, 0, 0, 0, 0, 0, 0, 0, 0, 0, 0xC0, 0x58]
      (by decide)).2.2.2⟩

/-- C20: in `decompressLZRLE` every opcode selects exactly one mode. An opcode
in `0xC0..0xFF` (bits `0x80` and `0x40` set) is a repeat-run of `op - 0xBD`
bytes, between 3 and 66; an opcode in `0x80..0xBF` (`0x80` set, `0x40` clear)
is a back-reference of `op - 0x7C` bytes, between 4 and 67; an opcode in
`0x00..0x7F` (`0x80` clear) is a raw-run of `op + 1` bytes, between 1 and 128.
The subtractions do not underflow, and every pass stores between 1 and 128
bytes. -/
theorem lzrleBody_count_ranges (libc : Libc) (inp : List Byte) (s : LoopState) :
    (0xC0 ≤ (rd inp s.inPos).val →
      3 ≤ (rd inp s.inPos).val - 0xBD ∧ (rd inp s.inPos).val - 0xBD ≤ 66 ∧
      lzrleBody libc inp s
        = { inPos := s.inPos + 2
            bytesLeft := subCopy s.bytesLeft ((rd inp s.inPos).val - 0xBD)
            out := s.out
              ++ List.replicate ((rd inp s.inPos).val - 0xBD) (rd inp (s.inPos + 1)) }) ∧
    (0x80 ≤ (rd inp s.inPos).val → (rd inp s.inPos).val < 0xC0 →
      4 ≤ (rd inp s.inPos).val - 0x7C ∧ (rd inp s.inPos).val - 0x7C ≤ 67 ∧
      lzrleBody libc inp s
        = { inPos := s.inPos + 3
            bytesLeft := subCopy s.bytesLeft ((rd inp s.inPos).val - 0x7C)
            out := s.out
              ++ memcpyBack libc s.out (rd16 inp (s.inPos + 1))
                  ((rd inp s.inPos).val - 0x7C) }) ∧
    ((rd inp s.inPos).val < 0x80 →
      1 ≤ (rd inp s.inPos).val + 1 ∧ (rd inp s.inPos).val + 1 ≤ 128 ∧
      lzrleBody libc inp s
        = { inPos := s.inPos + (((rd inp s.inPos).val + 1) + 1)
            bytesLeft := subCopy s.bytesLeft ((rd inp s.inPos).val + 1)
            out := s.out ++ memcpyFrom inp (s.inPos + 1) ((rd inp s.inPos).val + 1) }) ∧
    (∃ c : Nat, 1 ≤ c ∧ c ≤ 128 ∧
      (lzrleBody libc inp s).out.length = s.out.length + c ∧
      (lzrleBody libc inp s).bytesLeft = subCopy s.bytesLeft c) := by
  have hlt := (rd inp s.inPos).isLt
  have hb := byte_bits (rd inp s.inPos)
  have hrep : 0xC0 ≤ (rd inp s.inPos).val →
      lzrleBody libc inp s
        = { inPos := s.inPos + 2
            bytesLeft := subCopy s.bytesLeft ((rd inp s.inPos).val - 0xBD)
            out := s.out
              ++ List.replicate ((rd inp s.inPos).val - 0xBD) (rd inp (s.inPos + 1)) } := by
    intro h
    have h8 := hb.1.2 (by omega)
    have h4 := (hb.2 (by omega)).2 h
    have hc : toU32 (((rd inp s.inPos).val : Int) - 0xbd) = (rd inp s.inPos).val - 0xBD := by
      unfold toU32; omega
    simp only [lzrleBody, if_pos h8, if_pos h4, hc]
  have hback : 0x80 ≤ (rd inp s.inPos).val → (rd inp s.inPos).val < 0xC0 →
      lzrleBody libc inp s
        = { inPos := s.inPos + 3
            bytesLeft := subCopy s.bytesLeft ((rd inp s.inPos).val - 0x7C)
            out := s.out
              ++ memcpyBack libc s.out (rd16 inp (s.inPos + 1))
                  ((rd inp s.inPos).val - 0x7C) } := by
    intro h hl
    have h8 := hb.1.2 h
    have h4 : ¬ ((rd inp s.inPos).val &&& 0x40 ≠ 0) := by
      intro hx
      have := (hb.2 h).1 hx
      omega
    have hc : toU32 (((rd inp s.inPos).val : Int) - 0x7c) = (rd inp s.inPos).val - 0x7C := by
      unfold toU32; omega
    simp only [lzrleBody, if_pos h8, if_neg h4, hc]
  have hraw : (rd inp s.inPos).val < 0x80 →
      lzrleBody libc inp s
        = { inPos := s.inPos + (((rd inp s.inPos).val + 1) + 1)
            bytesLeft := subCopy s.bytesLeft ((rd inp s.inPos).val + 1)
            out := s.out ++ memcpyFrom inp (s.inPos + 1) ((rd inp s.inPos).val + 1) } := by
    intro h
    have h8 : ¬ ((rd inp s.inPos).val &&& 0x80 ≠ 0) := by
      intro hx
      have := hb.1.1 hx
      omega
    have hc : toU32 (((rd inp s.inPos).val : Int) + 1) = (rd inp s.inPos).val + 1 := by
      unfold toU32; omega
    simp only [lzrleBody, if_neg h8, hc]
  refine ⟨fun h => ⟨by omega, by omega, hrep h⟩, fun h hl => ⟨by omega, by omega, hback h hl⟩,
    fun h => ⟨by omega, by omega, hraw h⟩, ?_⟩
  by_cases h1 : (rd inp s.inPos).val < 0x80
  · refine ⟨(rd inp s.inPos).val + 1, by omega, by omega, ?_, ?_⟩
    · rw [hraw h1]; simp [memcpyFrom_length]
    · rw [hraw h1]
  · by_cases h2 : (rd inp s.inPos).val < 0xC0
    · refine ⟨(rd inp s.inPos).val - 0x7C, by omega, by omega, ?_, ?_⟩
      · rw [hback (by omega) h2]; simp [memcpyBack_length]
      · rw [hback (by omega) h2]
    · refine ⟨(rd inp s.inPos).val - 0xBD, by omega, by omega, ?_, ?_⟩
      · rw [hrep (by omega)]; simp
      · rw [hrep (by omega)]

/-- The opcodes `0xC0` (three copies), `0x80` (four bytes from four below) and
`0x01` (two literals), each at its own cursor. -/
theorem lzrleBody_count_ranges_witness :
    lzrleBody Libc.block [0xC0, 0x58] { inPos := 0, bytesLeft := 3, out := [] }
      = { inPos := 2, bytesLeft := 0, out := [0x58, 0x58, 0x58] } ∧
    lzrleBody Libc.block [0x80, 0x04, 0x00]
        { inPos := 0, bytesLeft := 4, out := [0x41, 0x42, 0x43, 0x44] }
      = { inPos := 3, bytesLeft := 0,
          out := [0x41, 0x42, 0x43, 0x44, 0x41, 0x42, 0x43, 0x44] } ∧
    lzrleBody Libc.block [0x01, 0x41, 0x42] { inPos := 0, bytesLeft := 2, out := [] }
      = { inPos := 3, bytesLeft := 0, out := [0x41, 0x42] } :=
  ⟨((lzrleBody_count_ranges Libc.block [0xC0, 0x58]
      { inPos := 0, bytesLeft := 3, out := [] }).1 (by decide)).2.2,
   ((lzrleBody_count_ranges Libc.block [0x80, 0x04, 0x00]
      { inPos := 0, bytesLeft := 4, out := [0x41, 0x42, 0x43, 0x44] }).2.1
        (by decide) (by decide)).2.2,
   ((lzrleBody_count_ranges Libc.block [0x01, 0x41, 0x42]
      { inPos := 0, bytesLeft := 2, out := [] }).2.2.1 (by decide)).2.2⟩

/-- C13: for an archive with the magic `BITP` and at least `10 + 17 * n` bytes,
`n` being the little-endian 32-bit number at offset 6, `main` reads a table of
exactly `n` entries and runs its loop over it; entry `i` has `id`, `offset`,
`length` and `hash` read as little-endian 32-bit numbers at offsets
`10 + 17 * i`, `14 + 17 * i`, `18 + 17 * i`, `22 + 17 * i` and `flag` read as the
byte at `26 + 17 * i`, all inside the archive. -/
theorem entryTable_layout (libc : Libc) (file : List Byte)
    (hmagic : file.take 4 = [0x42, 0x49, 0x54, 0x50])
    (hlen : 10 + 17 * rd32 file 6 ≤ file.length) :
    numEntries file = rd32 file 6 ∧
    (entryTable file).length = rd32 file 6 ∧
    (∀ i, i < rd32 file 6 →
      26 + 17 * i < file.length ∧
      (entryTable file)[i]?
        = some { id := rd32 file (10 + 17 * i)
                 offset := rd32 file (14 + 17 * i)
                 length := rd32 file (18 + 17 * i)
                 hash := rd32 file (22 + 17 * i)
                 flag := (rd file (26 + 17 * i)).val }) ∧
    main libc file
      = { events := .readEntries (rd32 file 6) :: .mkdir
            :: (extractLoop libc file (entryTable file)).events
          exit := (extractLoop libc file (entryTable file)).exit } := by
  refine ⟨rfl, by simp [entryTable, numEntries], ?_, ?_⟩
  · intro i hi
    refine ⟨by omega, ?_⟩
    have e4 : 10 + 17 * i + 4 = 14 + 17 * i := by omega
    have e8 : 10 + 17 * i + 8 = 18 + 17 * i := by omega
    have e12 : 10 + 17 * i + 12 = 22 + 17 * i := by omega
    have e16 : 10 + 17 * i + 16 = 26 + 17 * i := by omega
    simp only [entryTable, numEntries, List.getElem?_map, List.getElem?_range hi,
      Option.map_some', readEntry, sizeofBitHeader, sizeofBitEntry, e4, e8, e12, e16]
  · have hs : ¬ (strncmp file bitpLiteral 0 4 = true) := by
      intro hc
      exact (strncmp_magic file (by omega)).1 hc hmagic
    simp [main, hs, numEntries]

/-- An archive with one entry: `id = 0x11223344`, `offset = 27`, `length = 12`,
`hash = 0x01020304`, `flag = 7`. -/
theorem entryTable_layout_witness :
    entryTable [0x42, 0x49, 0x54, 0x50, 1, 0, 1, 0, 0, 0,
        0x44, 0x33, 0x22, 0x11, 27, 0, 0, 0, 12, 0, 0, 0, 0x04, 0x03, 0x02, 0x01, 7]
      = [{ id := 0x11223344, offset := 27, length := 12, hash := 0x01020304, flag := 7 }] ∧
    (entryTable [0x42, 0x49, 0x54, 0x50, 1, 0, 1, 0, 0, 0,
        0x44, 0x33, 0x22, 0x11, 27, 0, 0, 0, 12, 0, 0, 0, 0x04, 0x03, 0x02, 0x01, 7]).length
      = rd32 [0x42, 0x49, 0x54, 0x50, 1, 0, 1, 0, 0, 0,
        0x44, 0x33, 0x22, 0x11, 27, 0, 0, 0, 12, 0, 0, 0, 0x04, 0x03, 0x02, 0x01, 7] 6 :=
  ⟨by decide,
   (entryTable_layout Libc.block [0x42, 0x49, 0x54, 0x50, 1, 0, 1, 0, 0, 0,
        0x44, 0x33, 0x22, 0x11, 27, 0, 0, 0, 12, 0, 0, 0, 0x04, 0x03, 0x02, 0x01, 7]
      (by decide) (by decide)).2.1⟩

/-- C15: in the code `skip` is a number of bytes of the compressed payload that
are passed over. For each of the three decoders and every header with
`skip ≤ length`, the block with header `(length, skip)` and payload `P` yields
the same returned value and the same output as the block with header
`(length - skip, 0)` and the payload `P` without its first `skip` bytes. -/
theorem skip_drops_input (libc : Libc) (hd1 hd2 payload : List Byte)
    (h1 : hd1.length = 10) (h2 : hd2.length = 10) (hskip : hdrSkip hd1 ≤ hdrLength hd1)
    (hlen : hdrLength hd2 = hdrLength hd1 - hdrSkip hd1) (hzero : hdrSkip hd2 = 0) :
    decompressCopy (hd1 ++ payload) = decompressCopy (hd2 ++ payload.drop (hdrSkip hd1)) ∧
    decompressRLE (hd1 ++ payload) = decompressRLE (hd2 ++ payload.drop (hdrSkip hd1)) ∧
    decompressLZRLE libc (hd1 ++ payload)
      = decompressLZRLE libc (hd2 ++ payload.drop (hdrSkip hd1)) := by
  have hsame := sameFrom10_drop hd1 hd2 payload (hdrSkip hd1) h1 h2
  have hs1 : hdrSkip (hd1 ++ payload) = hdrSkip hd1 := hdrSkip_append hd1 _ h1
  have hs2 : hdrSkip (hd2 ++ payload.drop (hdrSkip hd1)) = 0 := by
    rw [hdrSkip_append hd2 _ h2, hzero]
  have hl : lengthMinusSkip (hd1 ++ payload)
      = lengthMinusSkip (hd2 ++ payload.drop (hdrSkip hd1)) := by
    rw [lengthMinusSkip_append hd1 _ h1, lengthMinusSkip_append hd2 _ h2]
    unfold lengthMinusSkip
    rw [hlen, hzero]
    have e : ((hdrLength hd1 - hdrSkip hd1 : Nat) : Int) - ((0 : Nat) : Int)
        = (hdrLength hd1 : Int) - (hdrSkip hd1 : Int) := by omega
    rw [e]
  have hinitR : Shifted (hdrSkip hd1) (rleInit (hd1 ++ payload))
      (rleInit (hd2 ++ payload.drop (hdrSkip hd1))) := by
    refine ⟨?_, ?_, hl, rfl⟩
    · simp only [rleInit, hs1, hs2, sizeofCmpHeader]; omega
    · simp only [rleInit, hs2, sizeofCmpHeader]; omega
  have hinitL : Shifted (hdrSkip hd1) (lzrleInit (hd1 ++ payload))
      (lzrleInit (hd2 ++ payload.drop (hdrSkip hd1))) := by
    refine ⟨?_, ?_, hl, rfl⟩
    · simp only [lzrleInit, hs1, hs2]; omega
    · simp only [lzrleInit, hs2]; omega
  refine ⟨?_, ?_, ?_⟩
  · unfold decompressCopy
    simp only [hl, hs1, hs2, sizeofCmpHeader]
    have := memcpyFrom_shift _ _ _ hsame 10
      (toSizeT (lengthMinusSkip (hd2 ++ payload.drop (hdrSkip hd1)))) (by omega)
    rw [show hdrSkip hd1 + 10 = 10 + hdrSkip hd1 by omega, this]
  · have := doWhile_shift _ _ _ (rleBody_shift _ _ _ hsame) _ _ hinitR
    unfold decompressRLE rleFinal
    rw [hl, this.2.2.2]
  · have := doWhile_shift _ _ _ (lzrleBody_shift libc _ _ _ hsame) _ _ hinitL
    unfold decompressLZRLE lzrleFinal
    rw [hl, this.2.2.2]

/-- Header `(4, 1)` over the payload `81 02 41 42 43` and header `(3, 0)` over
`02 41 42 43`: type 1 decodes both to `"ABC"`. -/
theorem skip_drops_input_witness :
    decompressRLE [1, 0, 0, 0, 4, 0, 0, 0, 1, 0, 0x81, 0x02, 0x41, 0x42, 0x43]
      = decompressRLE [1, 0, 0, 0, 3, 0, 0, 0, 0, 0, 0x02, 0x41, 0x42, 0x43] :=
  (skip_drops_input Libc.block [1, 0, 0, 0, 4, 0, 0, 0, 1, 0] [1, 0, 0, 0, 3, 0, 0, 0, 0, 0]
    [0x81, 0x02, 0x41, 0x42, 0x43] (by decide) (by decide) (by decide) (by decide)
    (by decide)).2.1

/-- C16: on every input the loops of `decompressRLE` and `decompressLZRLE` are
left after a number `n ≥ 1` of passes, the test `bytesLeft > 0` holding after
each pass but the last and failing after the last; every pass stores at least
one byte, and a pass that starts with a positive counter lowers it by exactly
the number of bytes stored, without wrap-around; when
`0 ≤ length - skip < 2^31` the number of passes is at most
`max(1, length - skip)`. -/
theorem decode_loops_terminate (libc : Libc) (blk : List Byte) :
    (∃ n : Nat, 1 ≤ n ∧ rleFinal blk = (rleBody blk)^[n] (rleInit blk) ∧
      (∀ j, 1 ≤ j → j < n → 0 < ((rleBody blk)^[j] (rleInit blk)).bytesLeft) ∧
      (rleFinal blk).bytesLeft ≤ 0 ∧
      (hdrSkip blk ≤ hdrLength blk → hdrLength blk - hdrSkip blk < 2147483648 →
        n ≤ max 1 (hdrLength blk - hdrSkip blk))) ∧
    (∃ n : Nat, 1 ≤ n ∧ lzrleFinal libc blk = (lzrleBody libc blk)^[n] (lzrleInit blk) ∧
      (∀ j, 1 ≤ j → j < n → 0 < ((lzrleBody libc blk)^[j] (lzrleInit blk)).bytesLeft) ∧
      (lzrleFinal libc blk).bytesLeft ≤ 0 ∧
      (hdrSkip blk ≤ hdrLength blk → hdrLength blk - hdrSkip blk < 2147483648 →
        n ≤ max 1 (hdrLength blk - hdrSkip blk))) ∧
    (∀ s : LoopState, s.out.length < (rleBody blk s).out.length ∧
      s.out.length < (lzrleBody libc blk s).out.length) ∧
    (∀ s : LoopState, 0 < s.bytesLeft → s.bytesLeft < 2147483648 →
      ((rleBody blk s).bytesLeft
          = s.bytesLeft - (((rleBody blk s).out.length - s.out.length : Nat) : Int) ∧
        (rleBody blk s).bytesLeft < s.bytesLeft) ∧
      ((lzrleBody libc blk s).bytesLeft
          = s.bytesLeft - (((lzrleBody libc blk s).out.length - s.out.length : Nat) : Int) ∧
        (lzrleBody libc blk s).bytesLeft < s.bytesLeft)) := by
  have hR := rleBody_decrements blk
  have hL := lzrleBody_decrements libc blk
  have bound : ∀ (body : LoopState → LoopState) (s : LoopState) (n : Nat),
      Decrements body → s.bytesLeft = lengthMinusSkip blk →
      (n : Int) ≤ 1 + max 0 (body s).bytesLeft →
      hdrSkip blk ≤ hdrLength blk → hdrLength blk - hdrSkip blk < 2147483648 →
      n ≤ max 1 (hdrLength blk - hdrSkip blk) := by
    intro body s n hb hs hn h1 h2
    obtain ⟨c, hc1, hc2, hc, _⟩ := hb s
    have hl := lengthMinusSkip_eq blk h1 h2
    rw [hs, hl] at hc
    have hx : (body s).bytesLeft = ((hdrLength blk - hdrSkip blk : Nat) : Int) - c := by
      rw [hc]; unfold toI32; omega
    rw [hx] at hn
    omega
  refine ⟨?_, ?_, ?_, ?_⟩
  · obtain ⟨n, hn1, hn2, he, hrun, hstop⟩ := doWhile_passes (rleBody blk) hR (rleInit blk)
    refine ⟨n, hn1, he, hrun, ?_, bound (rleBody blk) (rleInit blk) n hR rfl hn2⟩
    show (doWhile (rleBody blk) (rleInit blk)).bytesLeft ≤ 0
    rw [he]; exact hstop
  · obtain ⟨n, hn1, hn2, he, hrun, hstop⟩ :=
      doWhile_passes (lzrleBody libc blk) hL (lzrleInit blk)
    refine ⟨n, hn1, he, hrun, ?_,
      bound (lzrleBody libc blk) (lzrleInit blk) n hL rfl hn2⟩
    show (doWhile (lzrleBody libc blk) (lzrleInit blk)).bytesLeft ≤ 0
    rw [he]; exact hstop
  · intro s
    obtain ⟨c, hc1, _, _, hl⟩ := hR s
    obtain ⟨c2, hc21, _, _, hl2⟩ := hL s
    exact ⟨by omega, by omega⟩
  · intro s h0 h1
    have a := decrements_exact _ hR s h0 h1
    have b := decrements_exact _ hL s h0 h1
    exact ⟨⟨a.2.1, a.2.2⟩, ⟨b.2.1, b.2.2⟩⟩

/-- Scenario B: the type-1 loop makes two passes over `02 41 42 43 83 58` with
`length - skip = 9`; a pass that starts with `bytesLeft = 9` at the raw-run
leaves `bytesLeft = 6`. -/
theorem decode_loops_terminate_witness :
    rleFinal [1, 0, 0, 0, 9, 0, 0, 0, 0, 0, 0x02, 0x41, 0x42, 0x43, 0x83, 0x58]
      = (rleBody [1, 0, 0, 0, 9, 0, 0, 0, 0, 0, 0x02, 0x41, 0x42, 0x43, 0x83, 0x58])^[2]
          (rleInit [1, 0, 0, 0, 9, 0, 0, 0, 0, 0, 0x02, 0x41, 0x42, 0x43, 0x83, 0x58]) ∧
    (rleBody [1, 0, 0, 0, 9, 0, 0, 0, 0, 0, 0x02, 0x41, 0x42, 0x43, 0x83, 0x58]
        { inPos := 10, bytesLeft := 9, out := [] }).bytesLeft
      < ({ inPos := 10, bytesLeft := 9, out := [] } : LoopState).bytesLeft :=
  ⟨by decide,
   ((decode_loops_terminate Libc.block
      [1, 0, 0, 0, 9, 0, 0, 0, 0, 0, 0x02, 0x41, 0x42, 0x43, 0x83, 0x58]).2.2.2
      { inPos := 10, bytesLeft := 9, out := [] } (by decide) (by decide)).1.2⟩

set_option maxRecDepth 100000 in
/-- Every byte of the block used as an example of raw-runs is below `0x80`. -/
theorem rawOnly_example_bytes :
    ∀ b ∈ ([1, 0, 0, 0, 5, 0, 0, 0, 0, 0, 0x01, 0x41, 0x42, 0x02, 0x43, 0x44, 0x45] : List Byte),
      b.val < 0x80 := by
  decide

/-- C19: `decompressRLE` and `decompressLZRLE` start reading at the same
offset `10 + skip`, and on every block in which each opcode met by the loop is
below `0x80` they return the same value and the same output. An opcode is met
by the loop when it stands at the cursor before a pass that is made, that is,
before the first pass or after a pass that left `bytesLeft > 0`. -/
theorem rle_lzrle_agree_on_raw (libc : Libc) (blk : List Byte)
    (hraw : ∀ j, (∀ i, 1 ≤ i → i ≤ j → 0 < ((rleBody blk)^[i] (rleInit blk)).bytesLeft) →
      (rd blk ((rleBody blk)^[j] (rleInit blk)).inPos).val < 0x80) :
    rleInit blk = lzrleInit blk ∧ (rleInit blk).inPos = 10 + hdrSkip blk ∧
    decompressRLE blk = decompressLZRLE libc blk := by
  have hinit : rleInit blk = lzrleInit blk := rfl
  refine ⟨hinit, by simp only [rleInit, sizeofCmpHeader]; omega, ?_⟩
  have hloop : rleFinal blk = lzrleFinal libc blk := by
    unfold rleFinal lzrleFinal
    rw [← hinit]
    apply doWhile_agree
    intro j hj
    exact rleBody_eq_lzrleBody libc blk _ (hraw j hj)
  unfold decompressRLE decompressLZRLE
  rw [hloop]

/-- A block of bytes below `0x80` only: header `(5, 0)`, raw-run `"AB"`, raw-run
`"CDE"`; both decoders give `"ABCDE"`. -/
theorem rle_lzrle_agree_on_raw_witness :
    decompressRLE [1, 0, 0, 0, 5, 0, 0, 0, 0, 0, 0x01, 0x41, 0x42, 0x02, 0x43, 0x44, 0x45]
      = decompressLZRLE Libc.block
          [1, 0, 0, 0, 5, 0, 0, 0, 0, 0, 0x01, 0x41, 0x42, 0x02, 0x43, 0x44, 0x45] ∧
    decompressRLE [1, 0, 0, 0, 5, 0, 0, 0, 0, 0, 0x01, 0x41, 0x42, 0x02, 0x43, 0x44, 0x45]
      = { ret := 5, out := [0x41, 0x42, 0x43, 0x44, 0x45] } :=
  ⟨(rle_lzrle_agree_on_raw Libc.block
      [1, 0, 0, 0, 5, 0, 0, 0, 0, 0, 0x01, 0x41, 0x42, 0x02, 0x43, 0x44, 0x45]
      (fun _ _ => rd_lt_of_forall _ 0x80 (by decide) rawOnly_example_bytes _)).2.2,
   by decide⟩

/-- C11 (amended): for `decompressCopy` and every block with
`skip ≤ length < 2^31`, the output for the header `(length, skip)` over a
payload is the output for the header `(length, 0)` over the same payload
without its first `skip` bytes. -/
theorem decompressCopy_skip_drops_output (hd hd0 payload : List Byte)
    (h1 : hd.length = 10) (h0 : hd0.length = 10) (hskip : hdrSkip hd ≤ hdrLength hd)
    (hlen : hdrLength hd0 = hdrLength hd) (hzero : hdrSkip hd0 = 0)
    (hlt : hdrLength hd < 2147483648) :
    (decompressCopy (hd ++ payload)).out
      = ((decompressCopy (hd0 ++ payload)).out).drop (hdrSkip hd) := by
  have hs : hdrSkip hd < 65536 := hdrSkip_lt hd
  have e1 : lengthMinusSkip (hd ++ payload) = ((hdrLength hd - hdrSkip hd : Nat) : Int) := by
    rw [lengthMinusSkip_append hd _ h1]
    exact lengthMinusSkip_eq hd hskip (by omega)
  have e0 : lengthMinusSkip (hd0 ++ payload) = ((hdrLength hd : Nat) : Int) := by
    rw [lengthMinusSkip_append hd0 _ h0]
    have := lengthMinusSkip_eq hd0 (by omega) (by omega)
    rw [this, hzero, hlen]; rfl
  have z1 : toSizeT ((hdrLength hd - hdrSkip hd : Nat) : Int) = hdrLength hd - hdrSkip hd := by
    unfold toSizeT; omega
  have z0 : toSizeT ((hdrLength hd : Nat) : Int) = hdrLength hd := by
    unfold toSizeT; omega
  simp only [decompressCopy, e1, e0, z1, z0, hdrSkip_append hd _ h1, hdrSkip_append hd0 _ h0,
    hzero, sizeofCmpHeader, memcpyFrom_drop]
  have := memcpyFrom_shift _ _ 0 (sameFrom10_payload hd hd0 payload h1 h0) (0 + 10 + hdrSkip hd)
    (hdrLength hd - hdrSkip hd) (by omega)
  rw [show hdrSkip hd + 10 = 0 + 10 + hdrSkip hd + 0 by omega, this]

/-- Scenario A with both headers: `(10, 2)` gives the payload bytes `[2, 10)`,
which is what `(10, 0)` gives without its first two bytes. -/
theorem decompressCopy_skip_drops_output_witness :
    (decompressCopy ([0, 0, 0, 0, 10, 0, 0, 0, 2, 0]
        ++ [0x30, 0x31, 0x32, 0x33, 0x34, 0x35, 0x36, 0x37, 0x38, 0x39])).out
      = ((decompressCopy ([0, 0, 0, 0, 10, 0, 0, 0, 0, 0]
        ++ [0x30, 0x31, 0x32, 0x33, 0x34, 0x35, 0x36, 0x37, 0x38, 0x39])).out).drop
          (hdrSkip [0, 0, 0, 0, 10, 0, 0, 0, 2, 0]) :=
  decompressCopy_skip_drops_output [0, 0, 0, 0, 10, 0, 0, 0, 2, 0]
    [0, 0, 0, 0, 10, 0, 0, 0, 0, 0]
    [0x30, 0x31, 0x32, 0x33, 0x34, 0x35, 0x36, 0x37, 0x38, 0x39]
    (by decide) (by decide) (by decide) (by decide) (by decide) (by decide)

/-- C11, as stated, fails for types 1 and 2, and for type 0 when
`length ≥ 2^31`. Over the payload `81 02 41 42 43` type 1 decodes the header
`(4, 1)` to `"ABC"` (it starts at the opcode `02`) and the header `(4, 0)` to
four bytes `0x02`; over `C1 02 41 42 43` type 2 does the same. For type 0 the
header `(0x80000000, 1)` gives `2^31 - 1` bytes, while the header
`(0x80000000, 0)` has a negative length, copied as a `size_t`. -/
theorem skip_drops_output_fails :
    (decompressRLE ([1, 0, 0, 0, 4, 0, 0, 0, 1, 0] ++ [0x81, 0x02, 0x41, 0x42, 0x43])
        = { ret := 3, out := [0x41, 0x42, 0x43] } ∧
      decompressRLE ([1, 0, 0, 0, 4, 0, 0, 0, 0, 0] ++ [0x81, 0x02, 0x41, 0x42, 0x43])
        = { ret := 4, out := [0x02, 0x02, 0x02, 0x02] } ∧
      (decompressRLE ([1, 0, 0, 0, 4, 0, 0, 0, 1, 0] ++ [0x81, 0x02, 0x41, 0x42, 0x43])).out
        ≠ ((decompressRLE
            ([1, 0, 0, 0, 4, 0, 0, 0, 0, 0] ++ [0x81, 0x02, 0x41, 0x42, 0x43])).out).drop 1) ∧
    (decompressLZRLE Libc.forward
          ([2, 0, 0, 0, 4, 0, 0, 0, 1, 0] ++ [0xC1, 0x02, 0x41, 0x42, 0x43])
        = { ret := 3, out := [0x41, 0x42, 0x43] } ∧
      decompressLZRLE Libc.forward
          ([2, 0, 0, 0, 4, 0, 0, 0, 0, 0] ++ [0xC1, 0x02, 0x41, 0x42, 0x43])
        = { ret := 4, out := [0x02, 0x02, 0x02, 0x02] } ∧
      (decompressLZRLE Libc.forward
          ([2, 0, 0, 0, 4, 0, 0, 0, 1, 0] ++ [0xC1, 0x02, 0x41, 0x42, 0x43])).out
        ≠ ((decompressLZRLE Libc.forward
            ([2, 0, 0, 0, 4, 0, 0, 0, 0, 0] ++ [0xC1, 0x02, 0x41, 0x42, 0x43])).out).drop 1) ∧
    ((decompressCopy ([0, 0, 0, 0, 0, 0, 0, 0x80, 1, 0] ++ [])).out.length = 2147483647 ∧
      (((decompressCopy ([0, 0, 0, 0, 0, 0, 0, 0x80, 0, 0] ++ [])).out).drop 1).length
        = 18446744071562067967) := by
  refine ⟨by decide, by decide, ?_⟩
  simp only [decompressCopy, memcpyFrom_length, List.length_drop]
  decide

/-- C12, the code on `unsupportedArchive`: the output file of the entry has been
opened when the first byte `3` of its block is found, so the run ends with the
unsupported-format error and leaves an empty file named `0x11223344`. -/
theorem main_unsupported_leaves_file :
    main Libc.block unsupportedArchive
      = { events := [.readEntries 1, .mkdir, .fopenOut 0x11223344, .readBlock 27 12]
          exit := .unsupported 3 } ∧
    artifacts (main Libc.block unsupportedArchive).events = [(0x11223344, [])] := by
  decide

end BitExtract
